import Mathlib

/-!
Verification of the dwq work-queue implementation (dwq.py, dwq/dwqw.py,
dwq/dwqc.py) against its natural-language specification.

The Python sources are shallowly embedded: JSON job bodies become a
structure of optional fields, Python dictionary updates become
association-list operations, broker calls become effect values, and the
client's completion-collection loop becomes a fuel-indexed transition
function over an explicit state.  A Python expression that raises
(subscripting None, subscripting an empty list) is embedded as an
Option-valued function returning none.
-/

namespace Dwq

/-- A job result status as it appears on the wire: an integer exit code or
a string sentinel such as "timeout", "error" or "pass". -/
inductive Status
| int (n : Int)
| str (s : String)
deriving DecidableEq

/-- The literal success set written in dwqc.py line 286 and dwqw.py
line 123. -/
def passSet : List Status := [Status.int 0, Status.str "0", Status.str "pass"]

/-- Membership in the success set, the predicate both sides use. -/
def isPass (s : Status) : Bool := decide (s ∈ passSet)

/-- The options object of a job body, dwq spec section 3.  Values of the
files entry are opaque to every claim, so they are carried as raw
path-data pairs. -/
structure JobOptions where
  jobdir : Option String
  max_retries : Option Nat
  files : Option (List (String × String))
deriving DecidableEq

/-- A decoded JSON job body.  Required keys of a valid job are repo,
commit and command; a field is none when the key is absent from the
dictionary. -/
structure JobBody where
  repo : Option String
  commit : Option String
  command : Option String
  options : Option JobOptions
  env : Option (List (String × String))
  status_queues : Option (List String)
  control_queues : Option (List String)
  parent : Option String
deriving DecidableEq

/-- Python expression x or [] on an optional list value. -/
def pyOrList (o : Option (List String)) : List String :=
  match o with
  | none => []
  | some l => l

/-- Python expression body.get options or the empty dictionary,
dwqw.py line 78. -/
def pyOrOpts (o : Option JobOptions) : JobOptions :=
  match o with
  | none => JobOptions.mk none none none
  | some v => v

/-- Python expression x or d on an optional integer: None and 0 are both
falsy, so they yield the default, dwqw.py lines 106 and 123. -/
def pyOrNat (o : Option Nat) (d : Nat) : Nat :=
  match o with
  | none => d
  | some n => if n = 0 then d else n

/-- Python expression a or b on an optional string: None and the empty
string are falsy, dwqw.py lines 101 and 110. -/
def pyOrStr (a : Option String) (b : String) : String :=
  match a with
  | none => b
  | some s => if s = "" then b else s

/-- A job as constructed in the Job class of dwq.py lines 25 to 31. -/
structure Job where
  job_id : String
  body : JobBody
  queue_name : String
  nacks : Nat
  additional_deliveries : Nat
deriving DecidableEq

/-- Field initialization of dwq.py line 31: s.status_queues equals
body.get status_queues or the empty list. -/
def Job.statusQueues (j : Job) : List String := pyOrList j.body.status_queues

/-- Job.add from dwq.py lines 57 to 61: before serializing, the
notification queues are stored in the body under the key status_queues.
Every other key of the body is left untouched; in particular no key named
control_queues is ever written. -/
def Job.addBody (body : JobBody) (status_queues : Option (List String)) : JobBody :=
  { body with status_queues := some (pyOrList status_queues) }

/-- create_body from dwqc.py lines 86 to 97: the client builds the body
from repo, commit and command plus the optional options, parent and env
entries. -/
def create_body (repo commit command : String) (options : Option JobOptions)
    (parent : Option String) (env : Option (List (String × String))) : JobBody :=
  JobBody.mk (some repo) (some commit) (some command) options env none none parent

/-- Dictionary update: the bindings of the second list override those of
the first.  Lookup therefore scans from the right. -/
def envUpdate (e adds : List (String × String)) : List (String × String) := e ++ adds

/-- Lookup in an environment built by envUpdate: the last binding of a key
wins, as in a Python dictionary. -/
def envGet (e : List (String × String)) (k : String) : Option String :=
  Option.map Prod.snd (e.reverse.find? (fun p => decide (p.1 = k)))

/-- The child environment construction of the worker, dwqw.py lines 86 to
96.  The copy of the worker environment is overlaid with body.env when
present, then with the nine mandatory variables.  The value of
DWQ_CONTROL_QUEUE is the Python expression job.body.get control_queues
subscripted with 0: when the key is absent, get yields None and the
subscript raises TypeError; when the list is empty the subscript raises
IndexError.  Both raising paths are embedded as none. -/
def buildEnv (osEnv : List (String × String)) (job : Job) (repo commit : String)
    (workerName : String) (buildnum n : Nat) (unique : String) :
    Option (List (String × String)) :=
  let e1 := envUpdate osEnv (match job.body.env with | none => [] | some ev => ev)
  match job.body.control_queues with
  | none => none
  | some cq =>
    match cq.head? with
    | none => none
    | some cq0 =>
      some (envUpdate e1
        [("DWQ_REPO", repo), ("DWQ_COMMIT", commit), ("DWQ_QUEUE", job.queue_name),
         ("DWQ_WORKER", workerName), ("DWQ_WORKER_BUILDNUM", toString buildnum),
         ("DWQ_WORKER_THREAD", toString n), ("DWQ_JOBID", job.job_id),
         ("DWQ_JOB_UNIQUE", unique), ("DWQ_CONTROL_QUEUE", cq0)])

/-- Truthiness of an optional string: None and the empty string are
falsy. -/
def truthyStr (o : Option String) : Bool :=
  match o with
  | none => false
  | some s => !(decide (s = ""))

/-- The condition of dwqw.py line 79 exactly as Python operator precedence
parses it: options.get jobdir, or-ed with the comparison of the empty
string against the word exclusive. -/
def exclusiveCond (opts : JobOptions) : Bool :=
  truthyStr opts.jobdir || decide (("" : String) = "exclusive")

/-- dwqw.py lines 76 to 80: the exclusive lease token is a fresh random
string when the condition holds, otherwise None. -/
def exclusiveToken (opts : JobOptions) (freshTok : String) : Option String :=
  if exclusiveCond opts then some freshTok else none

/-- dwqw.py line 101: the sharing token passed to gitjobdir.get is the
Python expression exclusive or str n, where n is the worker slot
index. -/
def jobdirToken (options : Option JobOptions) (n : Nat) (freshTok : String) : String :=
  pyOrStr (exclusiveToken (pyOrOpts options) freshTok) (toString n)

/-- A worker decision at a retry point: put the job back with a NACK, or
finish it with a terminal completion. -/
inductive Decision
| nack
| term
deriving DecidableEq

/-- dwqw.py line 106, the retry test when the working directory could not
be acquired. -/
def workdirDecision (nacks : Nat) (opts : JobOptions) : Decision :=
  if nacks < pyOrNat opts.max_retries 2 then Decision.nack else Decision.term

/-- dwqw.py line 123, the retry test after running the command. -/
def cmdDecision (result : Status) (nacks : Nat) (opts : JobOptions) : Decision :=
  if (!(isPass result)) && decide (nacks < pyOrNat opts.max_retries 2) then
    Decision.nack
  else Decision.term

/-- A JSON value appearing inside a result object. -/
inductive JVal
| str (s : String)
| stat (s : Status)
| num (n : Nat)
| jbody (b : JobBody)
deriving DecidableEq

/-- The result object of dwqw.py line 71 for a body missing a required
field. -/
def invalidResult : List (String × JVal) :=
  [("status", JVal.str "error"), ("output", JVal.str "worker.py: invalid job description")]

/-- The result object of dwqw.py lines 110 to 111 for a terminal
working-directory failure. -/
def workdirFailResult (workdirError : Option String) (workerName : String)
    (body : JobBody) : List (String × JVal) :=
  [("status", JVal.str "error"),
   ("output", JVal.str (pyOrStr workdirError "dwqw: error getting jobdir\n")),
   ("worker", JVal.str workerName), ("runtime", JVal.num 0),
   ("body", JVal.jbody body)]

/-- The result object of dwqw.py lines 129 to 130 for a finished
command. -/
def commandResult (result : Status) (output : String) (workerName : String)
    (runtime : Nat) (body : JobBody) (unique : String) : List (String × JVal) :=
  [("status", JVal.stat result), ("output", JVal.str output),
   ("worker", JVal.str workerName), ("runtime", JVal.num runtime),
   ("body", JVal.jbody body), ("unique", JVal.str unique)]

/-- A top-level JSON value of a published notification body. -/
inductive TopVal
| vstr (s : String)
| vobj (fields : List (String × JVal))
deriving DecidableEq

/-- The wire envelope serialized in dwq.py line 53: job_id, state done,
and the result object. -/
def completionMsg (job_id : String) (result : List (String × JVal)) :
    List (String × TopVal) :=
  [("job_id", TopVal.vstr job_id), ("state", TopVal.vstr "done"),
   ("result", TopVal.vobj result)]

/-- A broker interaction performed by the embedded code. -/
inductive Effect
| addJob (queue : String) (body : List (String × TopVal))
| ackJob (id : String)
deriving DecidableEq

/-- One iteration of the publishing loop of dwq.py lines 50 to 53: the
queue equal to the literal string dollar jobid is replaced by the job id,
then one notification is added. -/
def doneStep (j : Job) (result : List (String × JVal)) (acc : List Effect)
    (queue : String) : List Effect :=
  let q := if queue = "$jobid" then j.job_id else queue
  acc ++ [Effect.addJob q (completionMsg j.job_id result)]

/-- Job.done from dwq.py lines 49 to 55: walk status_queues publishing one
completion notification each, then ACK the job. -/
def Job.doneEffects (j : Job) (result : List (String × JVal)) : List Effect :=
  (j.statusQueues.foldl (doneStep j result) []) ++ [Effect.ackJob j.job_id]

/-- External inputs consumed by one delivery in a worker slot: the
shutdown flag sampled at the loop head, the outcome of the gitjobdir
acquisition (none when get raised or returned null, with the captured
error output), and the command execution outcome. -/
structure DeliveryWorld where
  shutdown : Bool
  workdir : Option String
  workdir_error : Option String
  output : String
  cmdStatus : Status
  timedOut : Bool
  runtime : Nat
deriving DecidableEq

/-- What one delivery of a job did: NACKed it, finished it with the given
terminal result object, or raised an uncaught exception so that neither
happened, dropping to the slot restart handler of dwqw.py line 137. -/
inductive JOutcome
| nacked
| completed (result : List (String × JVal))
| crashed
deriving DecidableEq

/-- The effective command status of dwqw.py lines 119 to 121: the timeout
sentinel overrides the runner result. -/
def effectiveStatus (w : DeliveryWorld) : Status :=
  if w.timedOut then Status.str "timeout" else w.cmdStatus

/-- One delivery through the worker slot loop body, dwqw.py lines 56 to
135.  The second component records whether the job id is still in the
working set afterwards: the set is entered at line 61 and left at line
113 for both working-directory outcomes and at line 134 only on the
terminal command path. -/
def handleDelivery (w : DeliveryWorld) (workerName : String) (buildnum n : Nat)
    (unique : String) (osEnv : List (String × String)) (job : Job) :
    JOutcome × Bool :=
  if w.shutdown then (JOutcome.nacked, false)
  else
    match job.body.repo, job.body.commit, job.body.command with
    | some repo, some commit, some _command =>
      let opts := pyOrOpts job.body.options
      match buildEnv osEnv job repo commit workerName buildnum n unique with
      | none => (JOutcome.crashed, true)
      | some _env =>
        match w.workdir with
        | none =>
          match workdirDecision job.nacks opts with
          | Decision.nack => (JOutcome.nacked, false)
          | Decision.term =>
            (JOutcome.completed (workdirFailResult w.workdir_error workerName job.body),
             false)
        | some _wd =>
          let result := effectiveStatus w
          match cmdDecision result job.nacks opts with
          | Decision.nack => (JOutcome.nacked, true)
          | Decision.term =>
            (JOutcome.completed
              (commandResult result w.output workerName w.runtime job.body unique),
             false)
    | _, _, _ => (JOutcome.completed invalidResult, true)

/-!
The client side: the completion-collection loop of dwqc.py lines 251 to
322.  A decoded control-queue notification either carries a subjob key
(a subjob announcement, dwqc.py line 104) or is a completion; the
dictionary is embedded as a discriminated union carrying exactly the
entries the loop reads.  The two-level dictionary subjobs, indexed first
by parent and then by unique, is embedded as an association list keyed by
the pair, which supports the same reads and writes the loop performs.
-/

/-- A notification consumed from the control queue. -/
inductive Msg
| announce (parent unique subjob : String)
| complete (job_id unique : String) (result : Status)
deriving DecidableEq

/-- The state of the collection loop, dwqc.py lines 251 to 257. -/
structure ClientState where
  jobs : List String
  unexpected : List (String × Msg)
  early : List Msg
  subjobs : List ((String × String) × List String)
  total : Nat
  done : Nat
  passed : Nat
  failed : Nat
deriving DecidableEq

/-- Insertion into a Python set represented as a duplicate-free list. -/
def setInsert (l : List String) (x : String) : List String :=
  if x ∈ l then l else l ++ [x]

/-- dict_addset on the pair-keyed association list, dwqc.py lines 119 to
131: fetch or create the entry of the key and add the element to its
set. -/
def alistInsertSub (l : List ((String × String) × List String))
    (k : String × String) (x : String) : List ((String × String) × List String) :=
  match l with
  | [] => [(k, [x])]
  | (k', v) :: t =>
    if k' = k then (k', setInsert v x) :: t else (k', v) :: alistInsertSub t k x

/-- Two-level get with default empty, dwqc.py line 297. -/
def alistGet (l : List ((String × String) × List String)) (k : String × String) :
    List String :=
  match l.find? (fun p => decide (p.1 = k)) with
  | none => []
  | some p => p.2

/-- Lookup in the unexpected dictionary. -/
def uGet (l : List (String × Msg)) (k : String) : Option Msg :=
  Option.map Prod.snd (l.find? (fun p => decide (p.1 = k)))

/-- Removal of a key from the unexpected dictionary, as done by pop. -/
def uRemove (l : List (String × Msg)) (k : String) : List (String × Msg) :=
  l.filter (fun p => !(decide (p.1 = k)))

/-- Overwriting insertion into the unexpected dictionary, dwqc.py
line 322. -/
def uInsert (l : List (String × Msg)) (k : String) (m : Msg) : List (String × Msg) :=
  uRemove l k ++ [(k, m)]

/-- One iteration of the adoption loop, dwqc.py lines 298 to 304: a parked
notification for the subjob is moved to the replay list, and the subjob id
joins the outstanding set in any case. -/
def adoptOne (st : ClientState) (subjob_id : String) : ClientState :=
  let st1 :=
    match uGet st.unexpected subjob_id with
    | some m =>
      { st with early := st.early ++ [m],
                unexpected := uRemove st.unexpected subjob_id }
    | none => st
  { st1 with jobs := setInsert st1.jobs subjob_id }

/-- The direct state updates a consumed completion performs first,
dwqc.py lines 275 to 290: the id leaves the outstanding set, done grows,
and passed or failed grows by the success predicate. -/
def consumeMark (st : ClientState) (job_id : String) (result : Status) : ClientState :=
  { st with jobs := st.jobs.erase job_id, done := st.done + 1,
            passed := st.passed + (if isPass result then 1 else 0),
            failed := st.failed + (if isPass result then 0 else 1) }

/-- Consumption of an outstanding completion, dwqc.py lines 275 to 306:
after the direct updates, the subjobs recorded under the pair of the id
and the unique token of the result are adopted one by one, and total
grows by their number. -/
def consumeStep (st : ClientState) (job_id unique : String) (result : Status) :
    ClientState :=
  let st1 := consumeMark st job_id result
  let adopted := alistGet st1.subjobs (job_id, unique)
  let st2 := adopted.foldl adoptOne st1
  { st2 with total := st2.total + adopted.length }

/-- Processing of one notification, dwqc.py lines 262 to 322.  An
announcement is recorded in subjobs.  A completion whose id is
outstanding is consumed.  A completion whose id is not outstanding raises
KeyError at the set removal and is parked in unexpected. -/
def processMsg (st : ClientState) (m : Msg) : ClientState :=
  match m with
  | Msg.announce parent unique subjob =>
    { st with subjobs := alistInsertSub st.subjobs (parent, unique) subjob }
  | Msg.complete job_id unique result =>
    if job_id ∈ st.jobs then consumeStep st job_id unique result
    else { st with unexpected := uInsert st.unexpected job_id m }

/-- The for loop body applied to a whole fetched batch. -/
def processBatch (st : ClientState) (batch : List Msg) : ClientState :=
  batch.foldl processMsg st

/-- The while loop of dwqc.py lines 258 to 322, indexed by fuel.  While
the outstanding set is nonempty, the loop processes the replay list if it
is nonempty, otherwise blocks for the next batch from the control queue.
The result is the final state, the unread remainder of the stream, and
whether the loop exited by emptying the outstanding set; false means the
fuel ran out or the loop would block forever on an exhausted stream. -/
def runClient : Nat → ClientState → List (List Msg) → ClientState × List (List Msg) × Bool
| 0, st, stream => (st, stream, false)
| Nat.succ fuel, st, stream =>
  if st.jobs = [] then (st, stream, true)
  else
    match st.early with
    | [] =>
      match stream with
      | [] => (st, stream, false)
      | batch :: rest => runClient fuel (processBatch st batch) rest
    | m :: e2 =>
      runClient fuel (processBatch { st with early := [] } (m :: e2)) stream

/-- The initial collection state of dwqc.py lines 251 to 257: the
outstanding set holds the submitted top-level jobs and total starts at
their number. -/
def initState (jobs0 : List String) : ClientState :=
  ClientState.mk jobs0 [] [] [] jobs0.length 0 0 0

/-- A broker or process interaction in the tail of the client. -/
inductive CEffect
| cancelAll (ids : List String)
| reportAdd (queue : Option String) (status : String)
deriving DecidableEq

/-- The tail of dwqc main, lines 324 to 340: on interruption the
outstanding jobs are cancelled, a canceled report is published when a
report queue is set, and the process exits 1; otherwise a done report is
published and the exit status is 1 exactly when the failure counter is
positive. -/
def clientExit (interrupted : Bool) (report : Option String) (st : ClientState) :
    List CEffect × Nat :=
  if interrupted then
    (CEffect.cancelAll st.jobs ::
      (match report with
       | some _ => [CEffect.reportAdd report "canceled"]
       | none => []), 1)
  else
    ([CEffect.reportAdd report "done"], if st.failed > 0 then 1 else 0)

/-!
Specification vocabulary for the subjob-reconciliation runs of claim C2.
A run is described by a forest of job ids (the submitted top-level jobs
and, below each job, the subjobs its execution announced), a unique token
and a final status per job, and a schedule: the list of notifications the
broker delivers on the control queue, partitioned into the batches the
blocking wait returns.
-/

/-- The job id of a completion notification. -/
def cId : Msg → Option String
| Msg.complete j _ _ => some j
| Msg.announce _ _ _ => none

/-- The completion ids of a list of notifications. -/
def compIds (l : List Msg) : List String := l.filterMap cId

/-- The ids whose completion occurs among the first k delivered
notifications. -/
def readC (msgs : List Msg) (k : Nat) : List String := compIds (msgs.take k)

/-- The multiset of notifications a run of the forest generates: one
completion per job and one announcement per parent-child edge, the
announcement carrying the unique token of the parent. -/
def treeMsgs (ids : List String) (ch : String → List String) (uq : String → String)
    (stt : String → Status) : List Msg :=
  ids.map (fun j => Msg.complete j (uq j) (stt j)) ++
    ids.flatMap (fun j => (ch j).map (fun c => Msg.announce j (uq j) c))

/-- All children appearing under some parent of the forest. -/
def edgesOf (ids : List String) (ch : String → List String) : List String :=
  ids.flatMap ch

/-- Ids reachable from the roots in at most n child steps. -/
def reachN (roots : List String) (ch : String → List String) : Nat → List String
| 0 => roots
| Nat.succ n => reachN roots ch n ++ (reachN roots ch n).flatMap ch

/-- Well-formedness of the job forest: ids are distinct, every id is a
root or the child of exactly one parent (the child lists are globally
duplicate-free), roots are nobody's child, and every id is reachable from
the roots. -/
structure SysWF (roots ids : List String) (ch : String → List String) : Prop where
  roots_nodup : roots.Nodup
  ids_nodup : ids.Nodup
  roots_sub : ∀ x ∈ roots, x ∈ ids
  edges_sub : ∀ x ∈ edgesOf ids ch, x ∈ ids
  edges_nodup : (edgesOf ids ch).Nodup
  roots_edges : ∀ x ∈ roots, x ∉ edgesOf ids ch
  cover : ∀ x ∈ ids, x ∈ roots ∨ x ∈ edgesOf ids ch
  reach_all : ∀ x ∈ ids, x ∈ reachN roots ch ids.length

/-- The delivery-order condition: whenever a prefix of the schedule
already contains the completion of a parent, it also contains every
announcement of that parent's subjobs.  This is the ordering the adoption
machinery of the client relies on. -/
@[reducible]
def AnnBefore (ids : List String) (ch : String → List String) (uq : String → String)
    (stt : String → Status) (msgs : List Msg) : Prop :=
  ∀ j ∈ ids, ∀ c ∈ ch j, ∀ k, k ≤ msgs.length →
    Msg.complete j (uq j) (stt j) ∈ msgs.take k →
    Msg.announce j (uq j) c ∈ msgs.take k

/-- The set of ids the client has learned about after consuming the
completions in D: the roots plus every child of a consumed parent. -/
def adoptedSet (roots : List String) (ch : String → List String) (D : List String) :
    List String :=
  roots ++ D.flatMap ch

/-- The collection-loop invariant, relative to the run description.  D is
the list of ids whose completion the loop has consumed, k counts the
notifications already fetched from the schedule, and pending is the
unprocessed remainder of the replay batch currently being iterated (empty
at the head of the while loop).  The unexpected dictionary holds exactly
the fetched completions whose parent has not yet been consumed; the
replay list and pending hold the fetched completions whose id is
outstanding; the subjobs record holds exactly the announcements fetched
so far. -/
structure InvP (roots ids : List String) (ch : String → List String)
    (uq : String → String) (stt : String → Status) (msgs : List Msg)
    (D : List String) (st : ClientState) (k : Nat) (pending : List Msg) : Prop where
  d_sub_ids : ∀ x ∈ D, x ∈ ids
  d_read : ∀ x ∈ D, x ∈ readC msgs k
  d_adopted : ∀ x ∈ D, x ∈ adoptedSet roots ch D
  d_nodup : D.Nodup
  jobs_iff : ∀ x, x ∈ st.jobs ↔ (x ∈ adoptedSet roots ch D ∧ x ∉ D)
  jobs_nodup : st.jobs.Nodup
  unexp_iff : ∀ x, (∃ v, uGet st.unexpected x = some v) ↔
    (x ∈ readC msgs k ∧ x ∉ adoptedSet roots ch D)
  unexp_val : ∀ x v, uGet st.unexpected x = some v → v = Msg.complete x (uq x) (stt x)
  unexp_keys_nodup : (st.unexpected.map Prod.fst).Nodup
  early_shape : ∀ m ∈ st.early, ∃ x, m = Msg.complete x (uq x) (stt x) ∧
    x ∈ st.jobs ∧ x ∈ readC msgs k
  early_nodup : (compIds st.early).Nodup
  pend_shape : ∀ m ∈ pending, ∃ x, m = Msg.complete x (uq x) (stt x) ∧
    x ∈ st.jobs ∧ x ∈ readC msgs k
  pend_nodup : (compIds pending).Nodup
  early_pend_disj : ∀ x, x ∈ compIds st.early → x ∉ compIds pending
  part : ∀ x, x ∈ readC msgs k ↔ (x ∈ D ∨ (∃ v, uGet st.unexpected x = some v) ∨
    x ∈ compIds st.early ∨ x ∈ compIds pending)
  sub_iff : ∀ j ∈ ids, ∀ x, x ∈ alistGet st.subjobs (j, uq j) ↔
    (x ∈ ch j ∧ Msg.announce j (uq j) x ∈ msgs.take k)
  sub_nodup : ∀ j ∈ ids, (alistGet st.subjobs (j, uq j)).Nodup
  done_eq : st.done = D.length
  total_eq : st.total = roots.length + (D.flatMap ch).length
  parents_first : ∀ j ∈ ids, ∀ c ∈ ch j, c ∈ D → j ∈ D

/-- Fuel sufficient for the collection loop on a schedule of the given
batch count over the given forest. -/
def fuelBound (batchCount idCount : Nat) : Nat :=
  batchCount * (idCount + 1) + (idCount + 1)

/-- Fixture for the C2 witness: the child map of a run with parent P and
one subjob S. -/
def c2ch : String → List String := fun j => if j = "P" then ["S"] else []

/-- Fixture: unique tokens of the C2 witness run. -/
def c2uq : String → String := fun j => j ++ "u"

/-- Fixture: statuses of the C2 witness run. -/
def c2stt : String → Status := fun _ => Status.int 0

/-- Fixture: a schedule for the C2 witness in which the completion of the
subjob S arrives before the parent's completion and is parked, while the
announcement precedes the parent's completion as the amended claim
requires. -/
def c2msgs : List Msg :=
  [Msg.announce "P" "Pu" "S", Msg.complete "S" "Su" (Status.int 0),
   Msg.complete "P" "Pu" (Status.int 0)]

/-- Fixture: a delivery whose command always fails with exit status 1. -/
def failWorld : DeliveryWorld :=
  DeliveryWorld.mk false (some "d") none "o" (Status.int 1) false 7

/-- A valid job as delivered to the worker: required fields present,
explicit options, and a nonempty control_queues entry so that the
environment construction of dwqw.py line 96 succeeds.  The nacks argument
is the broker's NACK counter for this delivery. -/
def retryJob (repo commit command : String) (opts : JobOptions)
    (env : Option (List (String × String))) (sqs : Option (List String))
    (cq : List String) (pr : Option String) (jid qn : String) (nacks ad : Nat) : Job :=
  Job.mk jid
    (JobBody.mk (some repo) (some commit) (some command) (some opts) env sqs
      (some cq) pr)
    qn nacks ad

/-- Fixture: the job of the C3 witness, with an explicit retry bound of 2
and the nack counter of the i-th delivery. -/
def c3jobAt (i : Nat) : Job :=
  retryJob "r" "c" "x" (JobOptions.mk none (some 2) none) none none ["q"] none
    "j" "dq" i 0

/-!
Helper lemmas about the embedded dictionary and set operations.
-/

theorem mem_setInsert (l : List String) (x y : String) :
    y ∈ setInsert l x ↔ (y ∈ l ∨ y = x) := by
  unfold setInsert
  by_cases h : x ∈ l
  · simp only [if_pos h]
    constructor
    · exact fun hy => Or.inl hy
    · rintro (hy | rfl)
      · exact hy
      · exact h
  · simp [if_neg h]

theorem setInsert_nodup (l : List String) (x : String) (h : l.Nodup) :
    (setInsert l x).Nodup := by
  unfold setInsert
  by_cases hx : x ∈ l
  · rw [if_pos hx]
    exact h
  · rw [if_neg hx, List.nodup_append]
    refine ⟨h, List.nodup_singleton x, ?_⟩
    intro a ha hax
    rw [List.mem_singleton] at hax
    exact hx (hax ▸ ha)

theorem alistGet_cons (k' : String × String) (v : List String)
    (t : List ((String × String) × List String)) (key : String × String) :
    alistGet ((k', v) :: t) key = if k' = key then v else alistGet t key := by
  unfold alistGet
  by_cases h : k' = key
  · rw [List.find?_cons_of_pos]
    · rw [if_pos h]
    · simp [h]
  · rw [List.find?_cons_of_neg]
    · rw [if_neg h]
    · simp [h]

theorem alistGet_insertSub_same (l : List ((String × String) × List String))
    (key : String × String) (c : String) :
    alistGet (alistInsertSub l key c) key = setInsert (alistGet l key) c := by
  induction l with
  | nil =>
    show alistGet [(key, [c])] key = setInsert (alistGet [] key) c
    rw [alistGet_cons, if_pos rfl]
    simp [alistGet, setInsert]
  | cons p t ih =>
    obtain ⟨k', v⟩ := p
    by_cases h : k' = key
    · simp only [alistInsertSub, if_pos h]
      rw [alistGet_cons, alistGet_cons, if_pos h, if_pos h]
    · simp only [alistInsertSub, if_neg h]
      rw [alistGet_cons, alistGet_cons, if_neg h, if_neg h]
      exact ih

theorem alistGet_insertSub_ne (l : List ((String × String) × List String))
    (key key' : String × String) (c : String) (h : key' ≠ key) :
    alistGet (alistInsertSub l key c) key' = alistGet l key' := by
  induction l with
  | nil =>
    show alistGet [(key, [c])] key' = alistGet [] key'
    rw [alistGet_cons, if_neg (fun h2 => h h2.symm)]
  | cons p t ih =>
    obtain ⟨k', v⟩ := p
    by_cases hk : k' = key
    · simp only [alistInsertSub, if_pos hk]
      rw [alistGet_cons, alistGet_cons]
      have hne : ¬ k' = key' := fun h2 => h (h2 ▸ hk)
      rw [if_neg hne, if_neg hne]
    · simp only [alistInsertSub, if_neg hk]
      rw [alistGet_cons, alistGet_cons]
      by_cases hk2 : k' = key'
      · rw [if_pos hk2, if_pos hk2]
      · rw [if_neg hk2, if_neg hk2]
        exact ih

theorem uGet_cons (k' : String) (m : Msg) (t : List (String × Msg)) (y : String) :
    uGet ((k', m) :: t) y = if k' = y then some m else uGet t y := by
  unfold uGet
  by_cases h : k' = y
  · rw [List.find?_cons_of_pos]
    · rw [if_pos h]
      rfl
    · simp [h]
  · rw [List.find?_cons_of_neg]
    · rw [if_neg h]
    · simp [h]

theorem uGet_append (l1 l2 : List (String × Msg)) (y : String) :
    uGet (l1 ++ l2) y =
      match uGet l1 y with
      | some v => some v
      | none => uGet l2 y := by
  induction l1 with
  | nil => simp [uGet]
  | cons p t ih =>
    obtain ⟨k', m⟩ := p
    rw [List.cons_append, uGet_cons, uGet_cons]
    by_cases h : k' = y
    · rw [if_pos h, if_pos h]
    · rw [if_neg h, if_neg h]
      exact ih

theorem uRemove_cons_skip (k' : String) (m : Msg) (t : List (String × Msg))
    (k : String) (h : k' = k) : uRemove ((k', m) :: t) k = uRemove t k := by
  simp [uRemove, List.filter, h]

theorem uRemove_cons_keep (k' : String) (m : Msg) (t : List (String × Msg))
    (k : String) (h : ¬ k' = k) :
    uRemove ((k', m) :: t) k = (k', m) :: uRemove t k := by
  simp [uRemove, List.filter, h]

theorem uGet_uRemove (l : List (String × Msg)) (k y : String) :
    uGet (uRemove l k) y = if y = k then none else uGet l y := by
  induction l with
  | nil =>
    show uGet [] y = if y = k then none else uGet [] y
    by_cases hy : y = k
    · rw [if_pos hy]
      rfl
    · rw [if_neg hy]
  | cons p t ih =>
    obtain ⟨k', m⟩ := p
    by_cases hk : k' = k
    · rw [uRemove_cons_skip k' m t k hk, ih, uGet_cons]
      by_cases hy : y = k
      · rw [if_pos hy, if_pos hy]
      · rw [if_neg hy, if_neg hy, if_neg]
        intro h
        exact hy (h ▸ hk)
    · rw [uRemove_cons_keep k' m t k hk, uGet_cons, ih, uGet_cons]
      by_cases hky : k' = y
      · rw [if_pos hky, if_pos hky, if_neg]
        intro h
        exact hk (hky.trans h)
      · rw [if_neg hky, if_neg hky]

theorem uGet_uInsert (l : List (String × Msg)) (k y : String) (m : Msg) :
    uGet (uInsert l k m) y = if y = k then some m else uGet l y := by
  unfold uInsert
  rw [uGet_append, uGet_uRemove]
  by_cases hy : y = k
  · rw [if_pos hy, if_pos hy, uGet_cons, if_pos hy.symm]
  · rw [if_neg hy, if_neg hy]
    cases h : uGet l y with
    | some v => rfl
    | none =>
      rw [uGet_cons, if_neg (fun h2 => hy h2.symm)]
      rfl

theorem uRemove_keys_sublist (l : List (String × Msg)) (k : String) :
    ((uRemove l k).map Prod.fst).Sublist (l.map Prod.fst) :=
  List.Sublist.map Prod.fst (List.filter_sublist l)

theorem uGet_eq_none_of_not_mem_keys (l : List (String × Msg)) (y : String)
    (h : y ∉ l.map Prod.fst) : uGet l y = none := by
  unfold uGet
  rw [List.find?_eq_none.mpr]
  · rfl
  · intro p hp hpy
    exact h (List.mem_map.mpr ⟨p, hp, by simpa [decide_eq_true_eq] using hpy⟩)

theorem uGet_isSome_of_mem_keys (l : List (String × Msg)) (y : String)
    (h : y ∈ l.map Prod.fst) : ∃ v, uGet l y = some v := by
  unfold uGet
  obtain ⟨p, hp, hpy⟩ := List.mem_map.mp h
  have : (List.find? (fun p => decide (p.1 = y)) l).isSome = true := by
    apply List.find?_isSome.mpr
    exact ⟨p, hp, by simpa using hpy⟩
  obtain ⟨v, hv⟩ := Option.isSome_iff_exists.mp this
  exact ⟨v.2, by simp [hv]⟩

theorem uGet_mem_keys (l : List (String × Msg)) (y : String) (v : Msg)
    (h : uGet l y = some v) : y ∈ l.map Prod.fst := by
  by_contra hy
  rw [uGet_eq_none_of_not_mem_keys l y hy] at h
  exact Option.noConfusion h

/-!
Characterization of the adoption fold of dwqc.py lines 298 to 304.
-/

theorem adoptOne_jobs (st : ClientState) (c : String) :
    (adoptOne st c).jobs = setInsert st.jobs c := by
  unfold adoptOne
  cases uGet st.unexpected c <;> rfl

theorem adoptOne_unexpected_eq (st : ClientState) (c : String) :
    (adoptOne st c).unexpected =
      match uGet st.unexpected c with
      | some _ => uRemove st.unexpected c
      | none => st.unexpected := by
  unfold adoptOne
  cases uGet st.unexpected c <;> rfl

theorem adoptOne_uGet (st : ClientState) (c y : String) :
    uGet (adoptOne st c).unexpected y =
      if y = c then none else uGet st.unexpected y := by
  rw [adoptOne_unexpected_eq]
  cases hu : uGet st.unexpected c with
  | some m =>
    exact uGet_uRemove st.unexpected c y
  | none =>
    by_cases hy : y = c
    · rw [if_pos hy, hy, hu]
    · rw [if_neg hy]

theorem adoptOne_early (st : ClientState) (c : String) :
    (adoptOne st c).early = st.early ++ (uGet st.unexpected c).toList := by
  unfold adoptOne
  cases uGet st.unexpected c with
  | none => simp
  | some m => rfl

theorem adoptOne_others (st : ClientState) (c : String) :
    (adoptOne st c).subjobs = st.subjobs ∧ (adoptOne st c).total = st.total ∧
    (adoptOne st c).done = st.done ∧ (adoptOne st c).passed = st.passed ∧
    (adoptOne st c).failed = st.failed := by
  unfold adoptOne
  cases uGet st.unexpected c <;> exact ⟨rfl, rfl, rfl, rfl, rfl⟩

theorem adoptOne_keys_nodup (st : ClientState) (c : String)
    (h : (st.unexpected.map Prod.fst).Nodup) :
    ((adoptOne st c).unexpected.map Prod.fst).Nodup := by
  rw [adoptOne_unexpected_eq]
  cases uGet st.unexpected c with
  | some m => exact List.Sublist.nodup (uRemove_keys_sublist _ _) h
  | none => exact h

theorem adopt_foldl (A : List String) (st : ClientState) (hA : A.Nodup) :
    (∀ y, y ∈ (A.foldl adoptOne st).jobs ↔ (y ∈ st.jobs ∨ y ∈ A)) ∧
    (st.jobs.Nodup → (A.foldl adoptOne st).jobs.Nodup) ∧
    (∀ y, uGet (A.foldl adoptOne st).unexpected y =
      if y ∈ A then none else uGet st.unexpected y) ∧
    (A.foldl adoptOne st).early =
      st.early ++ A.filterMap (fun c => uGet st.unexpected c) ∧
    (A.foldl adoptOne st).subjobs = st.subjobs ∧
    (A.foldl adoptOne st).total = st.total ∧
    (A.foldl adoptOne st).done = st.done ∧
    (A.foldl adoptOne st).passed = st.passed ∧
    (A.foldl adoptOne st).failed = st.failed ∧
    ((st.unexpected.map Prod.fst).Nodup →
      ((A.foldl adoptOne st).unexpected.map Prod.fst).Nodup) := by
  induction A generalizing st with
  | nil => simp
  | cons c A' ih =>
    have hc : c ∉ A' := (List.nodup_cons.mp hA).1
    have hA' : A'.Nodup := (List.nodup_cons.mp hA).2
    have step : List.foldl adoptOne st (c :: A') = List.foldl adoptOne (adoptOne st c) A' :=
      rfl
    obtain ⟨j_iff, j_nd, u_eq, e_eq, s_eq, t_eq, d_eq, p_eq, f_eq, u_nd⟩ :=
      ih (adoptOne st c) hA'
    obtain ⟨o_s, o_t, o_d, o_p, o_f⟩ := adoptOne_others st c
    rw [step]
    refine ⟨?_, ?_, ?_, ?_, ?_, ?_, ?_, ?_, ?_, ?_⟩
    · intro y
      rw [j_iff y, adoptOne_jobs, mem_setInsert]
      simp only [List.mem_cons]
      tauto
    · intro hnd
      apply j_nd
      rw [adoptOne_jobs]
      exact setInsert_nodup _ _ hnd
    · intro y
      rw [u_eq y]
      by_cases hy2 : y ∈ A'
      · rw [if_pos hy2, if_pos (List.mem_cons_of_mem _ hy2)]
      · rw [if_neg hy2, adoptOne_uGet]
        by_cases hyc : y = c
        · rw [if_pos hyc, if_pos (by rw [hyc]; exact List.mem_cons_self _ _)]
        · rw [if_neg hyc, if_neg (by
            intro h
            rcases List.mem_cons.mp h with h1 | h2
            · exact hyc h1
            · exact hy2 h2)]
    · rw [e_eq, adoptOne_early, List.append_assoc]
      congr 1
      have hcong : A'.filterMap (fun x => uGet (adoptOne st c).unexpected x) =
          A'.filterMap (fun x => uGet st.unexpected x) := by
        apply List.filterMap_congr
        intro x hx
        have hxc : ¬ x = c := by
          intro h
          exact hc (h ▸ hx)
        rw [adoptOne_uGet, if_neg hxc]
      rw [hcong, List.filterMap_cons]
      cases hu : uGet st.unexpected c with
      | none => simp
      | some m => simp
    · rw [s_eq, o_s]
    · rw [t_eq, o_t]
    · rw [d_eq, o_d]
    · rw [p_eq, o_p]
    · rw [f_eq, o_f]
    · intro hnd
      exact u_nd (adoptOne_keys_nodup st c hnd)

/-!
Characterization of one processMsg step in its three cases.
-/

theorem adopt_foldl_counters (A : List String) (st : ClientState) :
    (A.foldl adoptOne st).subjobs = st.subjobs ∧
    (A.foldl adoptOne st).total = st.total ∧
    (A.foldl adoptOne st).done = st.done ∧
    (A.foldl adoptOne st).passed = st.passed ∧
    (A.foldl adoptOne st).failed = st.failed := by
  induction A generalizing st with
  | nil => exact ⟨rfl, rfl, rfl, rfl, rfl⟩
  | cons c A' ih =>
    obtain ⟨s1, t1, d1, p1, f1⟩ := adoptOne_others st c
    obtain ⟨s2, t2, d2, p2, f2⟩ := ih (adoptOne st c)
    exact ⟨s2.trans s1, t2.trans t1, d2.trans d1, p2.trans p1, f2.trans f1⟩

theorem processMsg_announce (st : ClientState) (p u c : String) :
    processMsg st (Msg.announce p u c) =
      { st with subjobs := alistInsertSub st.subjobs (p, u) c } := rfl

theorem processMsg_complete_eq (st : ClientState) (j u : String) (r : Status) :
    processMsg st (Msg.complete j u r) =
      if j ∈ st.jobs then consumeStep st j u r
      else { st with unexpected := uInsert st.unexpected j (Msg.complete j u r) } := rfl

theorem consumeStep_eq (st : ClientState) (j u : String) (r : Status) :
    consumeStep st j u r =
      { (alistGet st.subjobs (j, u)).foldl adoptOne (consumeMark st j r) with
        total := ((alistGet st.subjobs (j, u)).foldl adoptOne (consumeMark st j r)).total
          + (alistGet st.subjobs (j, u)).length } := rfl

theorem processMsg_park (st : ClientState) (j u : String) (r : Status)
    (hj : j ∉ st.jobs) :
    processMsg st (Msg.complete j u r) =
      { st with unexpected := uInsert st.unexpected j (Msg.complete j u r) } := by
  rw [processMsg_complete_eq, if_neg hj]

theorem processMsg_consume_counters (st : ClientState) (j u : String) (r : Status)
    (hj : j ∈ st.jobs) :
    (processMsg st (Msg.complete j u r)).done = st.done + 1 ∧
    (processMsg st (Msg.complete j u r)).passed =
      st.passed + (if isPass r then 1 else 0) ∧
    (processMsg st (Msg.complete j u r)).failed =
      st.failed + (if isPass r then 0 else 1) ∧
    (processMsg st (Msg.complete j u r)).total =
      st.total + (alistGet st.subjobs (j, u)).length := by
  rw [processMsg_complete_eq, if_pos hj, consumeStep_eq]
  obtain ⟨s2, t2, d2, p2, f2⟩ :=
    adopt_foldl_counters (alistGet st.subjobs (j, u)) (consumeMark st j r)
  exact ⟨d2, p2, f2, by rw [t2]; rfl⟩

theorem processMsg_consume (st : ClientState) (j u : String) (r : Status)
    (hj : j ∈ st.jobs) (hA : (alistGet st.subjobs (j, u)).Nodup) :
    (∀ y, y ∈ (processMsg st (Msg.complete j u r)).jobs ↔
      (y ∈ st.jobs.erase j ∨ y ∈ alistGet st.subjobs (j, u))) ∧
    (st.jobs.Nodup → (processMsg st (Msg.complete j u r)).jobs.Nodup) ∧
    (∀ y, uGet (processMsg st (Msg.complete j u r)).unexpected y =
      if y ∈ alistGet st.subjobs (j, u) then none else uGet st.unexpected y) ∧
    (processMsg st (Msg.complete j u r)).early =
      st.early ++ (alistGet st.subjobs (j, u)).filterMap (fun c => uGet st.unexpected c) ∧
    (processMsg st (Msg.complete j u r)).subjobs = st.subjobs ∧
    (processMsg st (Msg.complete j u r)).total =
      st.total + (alistGet st.subjobs (j, u)).length ∧
    (processMsg st (Msg.complete j u r)).done = st.done + 1 ∧
    (processMsg st (Msg.complete j u r)).passed =
      st.passed + (if isPass r then 1 else 0) ∧
    (processMsg st (Msg.complete j u r)).failed =
      st.failed + (if isPass r then 0 else 1) ∧
    ((st.unexpected.map Prod.fst).Nodup →
      ((processMsg st (Msg.complete j u r)).unexpected.map Prod.fst).Nodup) := by
  rw [processMsg_complete_eq, if_pos hj, consumeStep_eq]
  obtain ⟨j_iff, j_nd, u_eq, e_eq, s_eq, t_eq, d_eq, p_eq, f_eq, u_nd⟩ :=
    adopt_foldl (alistGet st.subjobs (j, u)) (consumeMark st j r) hA
  refine ⟨?_, ?_, ?_, ?_, ?_, ?_, ?_, ?_, ?_, ?_⟩
  · intro y
    exact j_iff y
  · intro hnd
    exact j_nd (List.Nodup.erase j hnd)
  · intro y
    exact u_eq y
  · exact e_eq
  · rw [s_eq]
    rfl
  · rw [t_eq]
    rfl
  · rw [d_eq]
    rfl
  · rw [p_eq]
    rfl
  · rw [f_eq]
    rfl
  · exact u_nd

/-!
Claims C1, C3 counterexample, C4, C5, C6, C7, C8, C9 and C10.
-/

/-- C1 (code bug): for every body produced by the client submission path,
create_body followed by Job.add, the body carries the notification queues
under status_queues and carries no control_queues key; the environment
construction of dwqw.py line 96 therefore subscripts None and raises, so
the child environment is never built, let alone one binding
DWQ_CONTROL_QUEUE to the first status queue. -/
theorem c1_control_queue_env_crash (repo commit command : String)
    (options : Option JobOptions) (parent : Option String)
    (env : Option (List (String × String))) (sq : Option (List String))
    (job_id qn : String) (nacks ad : Nat) (osEnv : List (String × String))
    (workerName : String) (buildnum n : Nat) (unique : String) :
    (Job.addBody (create_body repo commit command options parent env) sq).status_queues
      = some (pyOrList sq) ∧
    (Job.addBody (create_body repo commit command options parent env) sq).control_queues
      = none ∧
    buildEnv osEnv
      (Job.mk job_id (Job.addBody (create_body repo commit command options parent env) sq)
        qn nacks ad)
      repo commit workerName buildnum n unique = none :=
  ⟨rfl, rfl, rfl⟩

/-- C4 (code bug): a delivery of a valid job whose body came from the
client submission path ends with the worker thread raising at the
environment construction: the job is neither done-ed nor NACKed on this
delivery, and its id stays in the working set. -/
theorem c4_delivery_neither_done_nor_nacked (repo commit command : String)
    (options : Option JobOptions) (parent : Option String)
    (env : Option (List (String × String))) (sq : Option (List String))
    (wd : Option String) (wde : Option String) (out : String) (cs : Status)
    (to2 : Bool) (rt : Nat) (job_id qn : String) (nacks ad : Nat)
    (osEnv : List (String × String)) (workerName : String) (buildnum n : Nat)
    (unique : String) :
    handleDelivery (DeliveryWorld.mk false wd wde out cs to2 rt) workerName buildnum n
      unique osEnv
      (Job.mk job_id (Job.addBody (create_body repo commit command options parent env) sq)
        qn nacks ad)
      = (JOutcome.crashed, true) :=
  rfl

/-- Helper: the publishing fold of Job.done expands to a map over the
status queues. -/
theorem doneStep_foldl (j : Job) (result : List (String × JVal)) :
    ∀ (qs : List String) (acc : List Effect),
      qs.foldl (doneStep j result) acc =
        acc ++ qs.map (fun q =>
          Effect.addJob (if q = "$jobid" then j.job_id else q)
            (completionMsg j.job_id result)) := by
  intro qs
  induction qs with
  | nil => intro acc; simp
  | cons q t ih =>
    intro acc
    rw [List.foldl_cons, ih]
    simp [doneStep]

/-- C5: Job.done publishes exactly one completion notification per element
of status_queues, in order, replacing an element equal to the literal
dollar-jobid string by the job's own id, and afterwards ACKs the job
exactly once, after all publications. -/
theorem c5_done_per_status_queue (j : Job) (result : List (String × JVal)) :
    Job.doneEffects j result =
      (j.statusQueues.map (fun q =>
        Effect.addJob (if q = "$jobid" then j.job_id else q)
          (completionMsg j.job_id result))) ++ [Effect.ackJob j.job_id] ∧
    (Job.doneEffects j result).countP
      (fun e => match e with | Effect.addJob _ _ => true | _ => false)
      = j.statusQueues.length ∧
    (Job.doneEffects j result).countP
      (fun e => match e with | Effect.ackJob _ => true | _ => false) = 1 := by
  have h1 : Job.doneEffects j result =
      (j.statusQueues.map (fun q =>
        Effect.addJob (if q = "$jobid" then j.job_id else q)
          (completionMsg j.job_id result))) ++ [Effect.ackJob j.job_id] := by
    unfold Job.doneEffects
    rw [doneStep_foldl]
    simp
  refine ⟨h1, ?_, ?_⟩
  · rw [h1, List.countP_append]
    have : ∀ qs : List String,
        (qs.map (fun q =>
          Effect.addJob (if q = "$jobid" then j.job_id else q)
            (completionMsg j.job_id result))).countP
          (fun e => match e with | Effect.addJob _ _ => true | _ => false)
          = qs.length := by
      intro qs
      induction qs with
      | nil => rfl
      | cons q t ih => simp [List.countP_cons, ih]
    rw [this]
    rfl
  · rw [h1, List.countP_append]
    have : ∀ qs : List String,
        (qs.map (fun q =>
          Effect.addJob (if q = "$jobid" then j.job_id else q)
            (completionMsg j.job_id result))).countP
          (fun e => match e with | Effect.ackJob _ => true | _ => false) = 0 := by
      intro qs
      induction qs with
      | nil => rfl
      | cons q t ih => simp [List.countP_cons, ih]
    rw [this]
    rfl

/-- Helper: on a live delivery of a valid job with a nonempty
control_queues list and an acquired working directory, the worker's
outcome is decided by the command retry test. -/
theorem handleDelivery_run (w : DeliveryWorld) (wn : String) (bn n : Nat)
    (u : String) (osEnv : List (String × String)) (repo commit command : String)
    (opts : JobOptions) (env : Option (List (String × String)))
    (sqs : Option (List String)) (c0 : String) (cqs : List String)
    (pr : Option String) (jid qn : String) (nacks ad : Nat)
    (hsh : w.shutdown = false) (d : String) (hwd : w.workdir = some d) :
    handleDelivery w wn bn n u osEnv
      (retryJob repo commit command opts env sqs (c0 :: cqs) pr jid qn nacks ad)
      = match cmdDecision (effectiveStatus w) nacks opts with
        | Decision.nack => (JOutcome.nacked, true)
        | Decision.term =>
          (JOutcome.completed (commandResult (effectiveStatus w) w.output wn w.runtime
            (JobBody.mk (some repo) (some commit) (some command) (some opts) env sqs
              (some (c0 :: cqs)) pr) u), false) := by
  obtain ⟨sh, wd, wde, out, cs, to2, rt⟩ := w
  simp only at hsh hwd
  subst hsh
  subst hwd
  rfl

/-- Helper: an explicit positive retry bound is its own effective
value. -/
theorem pyOrNat_pos (k : Nat) (hk : 1 ≤ k) : pyOrNat (some k) 2 = k := by
  show (if k = 0 then 2 else k) = k
  rw [if_neg (by omega)]

/-- C3 counterexample: a job whose options carry max_retries 0 and whose
command fails on its first delivery (nack counter 0) is NACKed, not
finished: the claim instance for k equal 0 demands a terminal completion
on that delivery. -/
theorem c3_zero_retries_still_nacks :
    handleDelivery (DeliveryWorld.mk false (some "/tmp/wd") none "out" (Status.int 1) false 5)
      "w" 1 1 "u" []
      (retryJob "r" "c" "false" (JobOptions.mk none (some 0) none) none
        (some ["q1"]) ["q1"] none "job1" "default" 0 0)
      = (JOutcome.nacked, true) ∧
    (∀ res : List (String × JVal), JOutcome.nacked ≠ JOutcome.completed res) :=
  ⟨rfl, fun _ h => JOutcome.noConfusion h⟩

/-- C3 as amended: for any max_retries option — an explicit bound of at
least 1 used as is, an absent bound defaulting to 2, or an explicit 0
that is falsy in Python and therefore also behaves as the default 2 —
let k be the resulting effective bound pyOrNat mr 2.  A job whose
command fails on every delivery is NACKed on each delivery whose nack
counter is below k and receives exactly one terminal completion, on the
delivery whose nack counter equals k, the k plus first delivery.  The
trailing conjuncts pin the effective bound down in each of the three
cases. -/
theorem c3_always_failing_retry_schedule (mr : Option Nat)
    (w : Nat → DeliveryWorld)
    (hshut : ∀ i, (w i).shutdown = false)
    (hwd : ∀ i, ((w i).workdir).isSome = true)
    (hfail : ∀ i, isPass (effectiveStatus (w i)) = false)
    (repo commit command : String) (jd : Option String)
    (fl : Option (List (String × String))) (env : Option (List (String × String)))
    (sqs : Option (List String)) (c0 : String) (cqs : List String)
    (pr : Option String) (jid qn : String) (ad : Nat)
    (osEnv : List (String × String)) (wn : String) (bn n : Nat) (u : String) :
    (∀ i, i < pyOrNat mr 2 →
      handleDelivery (w i) wn bn n u osEnv
        (retryJob repo commit command (JobOptions.mk jd mr fl) env sqs
          (c0 :: cqs) pr jid qn i ad)
        = (JOutcome.nacked, true)) ∧
    handleDelivery (w (pyOrNat mr 2)) wn bn n u osEnv
      (retryJob repo commit command (JobOptions.mk jd mr fl) env sqs
        (c0 :: cqs) pr jid qn (pyOrNat mr 2) ad)
      = (JOutcome.completed (commandResult (effectiveStatus (w (pyOrNat mr 2)))
          ((w (pyOrNat mr 2)).output) wn ((w (pyOrNat mr 2)).runtime)
          (JobBody.mk (some repo) (some commit) (some command)
            (some (JobOptions.mk jd mr fl)) env sqs (some (c0 :: cqs)) pr) u),
         false) ∧
    (List.range (pyOrNat mr 2 + 1)).countP (fun i =>
      match (handleDelivery (w i) wn bn n u osEnv
        (retryJob repo commit command (JobOptions.mk jd mr fl) env sqs
          (c0 :: cqs) pr jid qn i ad)).1 with
      | JOutcome.completed _ => true
      | _ => false) = 1 ∧
    pyOrNat none 2 = 2 ∧ pyOrNat (some 0) 2 = 2 ∧
    (∀ k, 1 ≤ k → pyOrNat (some k) 2 = k) := by
  have hnack : ∀ i, i < pyOrNat mr 2 →
      handleDelivery (w i) wn bn n u osEnv
        (retryJob repo commit command (JobOptions.mk jd mr fl) env sqs
          (c0 :: cqs) pr jid qn i ad)
        = (JOutcome.nacked, true) := by
    intro i hi
    obtain ⟨d, hd⟩ := Option.isSome_iff_exists.mp (hwd i)
    rw [handleDelivery_run (w i) wn bn n u osEnv repo commit command
      (JobOptions.mk jd mr fl) env sqs c0 cqs pr jid qn i ad (hshut i) d hd]
    have hdec : cmdDecision (effectiveStatus (w i)) i (JobOptions.mk jd mr fl)
        = Decision.nack := by
      unfold cmdDecision
      rw [hfail i]
      simp [hi]
    rw [hdec]
  have hterm : handleDelivery (w (pyOrNat mr 2)) wn bn n u osEnv
      (retryJob repo commit command (JobOptions.mk jd mr fl) env sqs
        (c0 :: cqs) pr jid qn (pyOrNat mr 2) ad)
      = (JOutcome.completed (commandResult (effectiveStatus (w (pyOrNat mr 2)))
          ((w (pyOrNat mr 2)).output) wn ((w (pyOrNat mr 2)).runtime)
          (JobBody.mk (some repo) (some commit) (some command)
            (some (JobOptions.mk jd mr fl)) env sqs (some (c0 :: cqs)) pr) u),
         false) := by
    obtain ⟨d, hd⟩ := Option.isSome_iff_exists.mp (hwd (pyOrNat mr 2))
    rw [handleDelivery_run (w (pyOrNat mr 2)) wn bn n u osEnv repo commit command
      (JobOptions.mk jd mr fl) env sqs c0 cqs pr jid qn (pyOrNat mr 2) ad
      (hshut (pyOrNat mr 2)) d hd]
    have hdec : cmdDecision (effectiveStatus (w (pyOrNat mr 2))) (pyOrNat mr 2)
        (JobOptions.mk jd mr fl) = Decision.term := by
      unfold cmdDecision
      rw [hfail (pyOrNat mr 2)]
      simp
    rw [hdec]
  refine ⟨hnack, hterm, ?_, rfl, rfl, fun k hk => pyOrNat_pos k hk⟩
  rw [List.range_succ, List.countP_append]
  have h0 : (List.range (pyOrNat mr 2)).countP (fun i =>
      match (handleDelivery (w i) wn bn n u osEnv
        (retryJob repo commit command (JobOptions.mk jd mr fl) env sqs
          (c0 :: cqs) pr jid qn i ad)).1 with
      | JOutcome.completed _ => true
      | _ => false) = 0 := by
    rw [List.countP_eq_zero]
    intro i hi
    rw [hnack i (List.mem_range.mp hi)]
    simp
  rw [h0]
  simp [hterm]

/-- Witness for the amended C3 at the concrete instance of an explicit
retry bound 2: two NACKs, then one terminal completion on the third
delivery. -/
theorem c3_always_failing_retry_schedule_witness :
    (failWorld.shutdown = false ∧ (failWorld.workdir).isSome = true ∧
     isPass (effectiveStatus failWorld) = false) ∧
    ((∀ i, i < 2 → handleDelivery failWorld "w" 1 1 "u" [] (c3jobAt i)
        = (JOutcome.nacked, true)) ∧
     handleDelivery failWorld "w" 1 1 "u" [] (c3jobAt 2)
        = (JOutcome.completed (commandResult (effectiveStatus failWorld)
            failWorld.output "w" failWorld.runtime
            (JobBody.mk (some "r") (some "c") (some "x")
              (some (JobOptions.mk none (some 2) none)) none none (some ["q"]) none)
            "u"), false) ∧
     (List.range 3).countP (fun i =>
       match (handleDelivery failWorld "w" 1 1 "u" [] (c3jobAt i)).1 with
       | JOutcome.completed _ => true
       | _ => false) = 1 ∧
     pyOrNat none 2 = 2 ∧ pyOrNat (some 0) 2 = 2 ∧
     (∀ k, 1 ≤ k → pyOrNat (some k) 2 = k)) :=
  ⟨⟨rfl, rfl, rfl⟩,
   c3_always_failing_retry_schedule (some 2) (fun _ => failWorld)
     (fun _ => rfl) (fun _ => rfl) (fun _ => rfl) "r" "c" "x" none none none none
     "q" [] none "j" "dq" 0 [] "w" 1 1 "u"⟩

/-- C6 (code bug): with options carrying a jobdir value that is truthy but
different from the word exclusive, the worker still generates a fresh
random token and passes it to gitjobdir.get, instead of the slot index
the specification prescribes — the condition of dwqw.py line 79 parses as
a disjunction, so any truthy jobdir value triggers the exclusive path. -/
theorem c6_nonexclusive_jobdir_gets_fresh_token :
    jobdirToken (some (JobOptions.mk (some "shared") none none)) 3 "0.4477" = "0.4477" ∧
    ("0.4477" : String) ≠ "3" ∧
    exclusiveCond (JobOptions.mk (some "shared") none none) = true := by
  refine ⟨rfl, ?_, rfl⟩
  decide

/-- C7: a status counts as passing exactly when it is the integer 0, the
string 0 or the word pass; the client consuming a completion increments
passed exactly under this predicate and failed otherwise, and the worker
chooses to NACK a finished command exactly when the predicate fails and
the nack counter is below the effective retry bound. -/
theorem c7_success_predicate :
    (∀ s : Status, isPass s = true ↔
      (s = Status.int 0 ∨ s = Status.str "0" ∨ s = Status.str "pass")) ∧
    (∀ (st : ClientState) (j u : String) (r : Status), j ∈ st.jobs →
      (processMsg st (Msg.complete j u r)).passed =
        st.passed + (if isPass r then 1 else 0) ∧
      (processMsg st (Msg.complete j u r)).failed =
        st.failed + (if isPass r then 0 else 1)) ∧
    (∀ (r : Status) (nacks : Nat) (opts : JobOptions),
      cmdDecision r nacks opts = Decision.nack ↔
        (isPass r = false ∧ nacks < pyOrNat opts.max_retries 2)) := by
  refine ⟨?_, ?_, ?_⟩
  · intro s
    simp [isPass, passSet]
  · intro st j u r hj
    obtain ⟨_, p_eq, f_eq, _⟩ := processMsg_consume_counters st j u r hj
    exact ⟨p_eq, f_eq⟩
  · intro r nacks opts
    unfold cmdDecision
    by_cases hp : isPass r
    · rw [hp]
      simp
    · simp only [Bool.not_eq_true] at hp
      rw [hp]
      by_cases hn : nacks < pyOrNat opts.max_retries 2
      · simp [hn]
      · simp [hn]

/-- Witness for C7 at a concrete consumed completion. -/
theorem c7_success_predicate_witness :
    ("j1" ∈ (initState ["j1"]).jobs) ∧
    (processMsg (initState ["j1"]) (Msg.complete "j1" "u" (Status.str "pass"))).passed =
      (initState ["j1"]).passed + (if isPass (Status.str "pass") then 1 else 0) :=
  ⟨by decide,
   (c7_success_predicate.2.1 (initState ["j1"]) "j1" "u" (Status.str "pass")
     (by decide)).1⟩

/-- C8: in non-subjob mode the client exits 1 exactly when the run was
interrupted or some job failed, and 0 otherwise. -/
theorem c8_exit_status (i : Bool) (report : Option String) (st : ClientState) :
    ((clientExit i report st).2 = 1 ∨ (clientExit i report st).2 = 0) ∧
    ((clientExit i report st).2 = 0 ↔ (i = false ∧ st.failed = 0)) := by
  unfold clientExit
  cases i with
  | true => simp
  | false =>
    by_cases h : st.failed > 0
    · simp [h]
      omega
    · simp [h]
      omega

/-- C9 counterexample: the terminal completion for a working-directory
failure carries no unique field, refuting the claim that every completion
result published by the worker contains all six fields. -/
theorem c9_workdir_result_lacks_unique :
    ¬ ("unique" ∈ (workdirFailResult none "w1"
      (create_body "r" "c" "make" none none none)).map Prod.fst) := by
  decide

/-- C9 as amended: every published completion has the envelope of job_id,
state done and result; a normal command completion result carries exactly
status, output, worker, runtime, body and unique; a terminal
working-directory-failure result carries exactly status, output, worker,
runtime and body, without unique; an invalid-body result carries exactly
status and output. -/
theorem c9_completion_wire_shape (res : List (String × JVal)) (jid : String)
    (r : Status) (out wn : String) (rt : Nat) (b : JobBody) (u : String)
    (wde : Option String) :
    (completionMsg jid res).map Prod.fst = ["job_id", "state", "result"] ∧
    (commandResult r out wn rt b u).map Prod.fst =
      ["status", "output", "worker", "runtime", "body", "unique"] ∧
    (workdirFailResult wde wn b).map Prod.fst =
      ["status", "output", "worker", "runtime", "body"] ∧
    invalidResult.map Prod.fst = ["status", "output"] :=
  ⟨rfl, rfl, rfl, rfl⟩

/-- C2 counterexample: one parent P with one subjob S.  The parent's
completion is delivered before the subjob announcement (here, earlier in
the same batch).  The collection loop then exits with total 1 instead of
2, leaving the completion of S unread on the control queue: the claim's
tolerance of announcements arriving after the parent's completion fails
on the code. -/
theorem c2_late_announcement_terminates_early :
    (runClient 10 (initState ["P"])
      [[Msg.complete "P" "uP" (Status.int 0), Msg.announce "P" "uP" "S"],
       [Msg.complete "S" "uS" (Status.int 0)]]).1.total = 1 ∧
    (runClient 10 (initState ["P"])
      [[Msg.complete "P" "uP" (Status.int 0), Msg.announce "P" "uP" "S"],
       [Msg.complete "S" "uS" (Status.int 0)]]).1.done = 1 ∧
    (runClient 10 (initState ["P"])
      [[Msg.complete "P" "uP" (Status.int 0), Msg.announce "P" "uP" "S"],
       [Msg.complete "S" "uS" (Status.int 0)]]).2 =
      ([[Msg.complete "S" "uS" (Status.int 0)]], true) :=
  ⟨by decide, by decide, by decide⟩

/-- C10: an explicit max_retries of 0 is falsy in Python, so the
expression options.get max_retries or 2 yields the default 2; both the
working-directory retry decision and the command retry decision behave as
if max_retries were absent, and a first failure is still NACKed. -/
theorem c10_max_retries_zero (nacks : Nat) (r : Status) (jd : Option String)
    (fl : Option (List (String × String))) :
    pyOrNat (some 0) 2 = 2 ∧ pyOrNat none 2 = 2 ∧
    workdirDecision nacks (JobOptions.mk jd (some 0) fl) =
      workdirDecision nacks (JobOptions.mk jd none fl) ∧
    cmdDecision r nacks (JobOptions.mk jd (some 0) fl) =
      cmdDecision r nacks (JobOptions.mk jd none fl) ∧
    cmdDecision (Status.int 1) 0 (JobOptions.mk jd (some 0) fl) = Decision.nack :=
  ⟨rfl, rfl, rfl, rfl, rfl⟩

/-!
Claim C2: the subjob-reconciliation run of the collection loop.  The
section fixes a well-formed forest and a schedule that is a permutation
of the forest's notifications in which every announcement precedes its
parent's completion.
-/

section SubjobRun

variable (roots ids : List String) (ch : String → List String)
variable (uq : String → String) (stt : String → Status)
variable (msgs : List Msg)

/-- Every scheduled notification is a canonical completion or a canonical
announcement of the forest. -/
theorem msg_shape (S1 : msgs.Perm (treeMsgs ids ch uq stt)) :
    ∀ m ∈ msgs, (∃ j, j ∈ ids ∧ m = Msg.complete j (uq j) (stt j)) ∨
      (∃ j c, j ∈ ids ∧ c ∈ ch j ∧ m = Msg.announce j (uq j) c) := by
  intro m hm
  have hmem : m ∈ treeMsgs ids ch uq stt := S1.mem_iff.mp hm
  unfold treeMsgs at hmem
  rcases List.mem_append.mp hmem with h | h
  · obtain ⟨j, hj, he⟩ := List.mem_map.mp h
    exact Or.inl ⟨j, hj, he.symm⟩
  · obtain ⟨j, hj, hc⟩ := List.mem_flatMap.mp h
    obtain ⟨c, hcc, he⟩ := List.mem_map.mp hc
    exact Or.inr ⟨j, c, hj, hcc, he.symm⟩

/-- A completion in the schedule is the canonical completion of its
id. -/
theorem complete_canon (S1 : msgs.Perm (treeMsgs ids ch uq stt)) :
    ∀ j u r, Msg.complete j u r ∈ msgs →
      j ∈ ids ∧ u = uq j ∧ r = stt j := by
  intro j u r hm
  rcases msg_shape ids ch uq stt msgs S1 _ hm with ⟨j2, hj2, he⟩ | ⟨j2, c2, _, _, he⟩
  · obtain ⟨h1, h2, h3⟩ := Msg.complete.inj he
    subst h1
    exact ⟨hj2, h2, h3⟩
  · exact Msg.noConfusion he

/-- An announcement in the schedule is the canonical announcement of an
edge of the forest. -/
theorem announce_canon (S1 : msgs.Perm (treeMsgs ids ch uq stt)) :
    ∀ p u c, Msg.announce p u c ∈ msgs →
      p ∈ ids ∧ u = uq p ∧ c ∈ ch p := by
  intro p u c hm
  rcases msg_shape ids ch uq stt msgs S1 _ hm with ⟨j2, _, he⟩ | ⟨j2, c2, hj2, hc2, he⟩
  · exact Msg.noConfusion he
  · obtain ⟨h1, h2, h3⟩ := Msg.announce.inj he
    subst h1
    subst h3
    exact ⟨hj2, h2, hc2⟩

/-- The subjob of an announcement, the id of a completion. -/
def msgKeyId : Msg → String
| Msg.announce _ _ c => c
| Msg.complete j _ _ => j

/-- The notifications of a well-formed forest are pairwise distinct. -/
theorem treeMsgs_nodup (W : SysWF roots ids ch) :
    (treeMsgs ids ch uq stt).Nodup := by
  unfold treeMsgs
  rw [List.nodup_append]
  refine ⟨?_, ?_, ?_⟩
  · apply List.Nodup.map ?_ W.ids_nodup
    intro a b he
    exact (Msg.complete.inj he).1
  · apply List.Nodup.of_map msgKeyId
    have hmap : (ids.flatMap fun j => (ch j).map fun c => Msg.announce j (uq j) c).map
        msgKeyId = edgesOf ids ch := by
      rw [List.map_flatMap]
      unfold edgesOf
      congr 1
      funext j
      rw [List.map_map]
      have : (msgKeyId ∘ fun c => Msg.announce j (uq j) c) = id := by
        funext c
        rfl
      rw [this, List.map_id]
    rw [hmap]
    exact W.edges_nodup
  · intro a ha hb
    obtain ⟨j, _, he⟩ := List.mem_map.mp ha
    obtain ⟨j2, _, hc⟩ := List.mem_flatMap.mp hb
    obtain ⟨c2, _, he2⟩ := List.mem_map.mp hc
    rw [← he] at he2
    exact Msg.noConfusion he2

/-- The schedule has no duplicate notifications. -/
theorem msgs_nodup (W : SysWF roots ids ch)
    (S1 : msgs.Perm (treeMsgs ids ch uq stt)) : msgs.Nodup :=
  S1.nodup_iff.mpr (treeMsgs_nodup roots ids ch uq stt W)

/-- Each id's children lists are duplicate-free. -/
theorem ch_nodup (W : SysWF roots ids ch) :
    ∀ j ∈ ids, (ch j).Nodup := by
  intro j hj
  have h1 : (edgesOf ids ch).Nodup := W.edges_nodup
  unfold edgesOf at h1
  rw [List.flatMap_def] at h1
  have := (List.nodup_flatten.mp h1).1
  exact this (ch j) (List.mem_map.mpr ⟨j, hj, rfl⟩)

/-- Each child has a unique parent in a well-formed forest. -/
theorem uniqueParent (W : SysWF roots ids ch) :
    ∀ j ∈ ids, ∀ j2 ∈ ids, ∀ c, c ∈ ch j → c ∈ ch j2 → j = j2 := by
  intro j hj j2 hj2 c hc hc2
  by_contra hne
  have h1 : (edgesOf ids ch).Nodup := W.edges_nodup
  unfold edgesOf at h1
  rw [List.flatMap_def] at h1
  have hpw := (List.nodup_flatten.mp h1).2
  rw [List.pairwise_map] at hpw
  have hdisj := hpw.forall (fun a b h => List.Disjoint.symm h)
  have hj12 : j ≠ j2 := hne
  exact (hdisj hj hj2 hj12) hc hc2

/-- Membership in the prefix ids: a job id was read exactly when its
canonical completion is in the prefix. -/
theorem mem_readC (S1 : msgs.Perm (treeMsgs ids ch uq stt)) (x : String) (k : Nat) :
    x ∈ readC msgs k ↔ Msg.complete x (uq x) (stt x) ∈ msgs.take k := by
  unfold readC compIds
  rw [List.mem_filterMap]
  constructor
  · rintro ⟨m, hm, hcid⟩
    match m, hcid with
    | Msg.complete j u r, hcid =>
      have hj : j = x := by
        simpa [cId] using hcid
      subst hj
      have hmm : Msg.complete j u r ∈ msgs := List.take_subset k msgs hm
      obtain ⟨_, hu, hr⟩ := complete_canon ids ch uq stt msgs S1 j u r hmm
      rw [hu, hr] at hm
      exact hm
  · intro hm
    exact ⟨Msg.complete x (uq x) (stt x), hm, rfl⟩

/-- Read ids are forest ids. -/
theorem readC_sub_ids (S1 : msgs.Perm (treeMsgs ids ch uq stt)) (x : String)
    (k : Nat) (h : x ∈ readC msgs k) : x ∈ ids := by
  rw [mem_readC ids ch uq stt msgs S1] at h
  exact (complete_canon ids ch uq stt msgs S1 x (uq x) (stt x)
    (List.take_subset k msgs h)).1

/-- Prefixes grow with k. -/
theorem take_mono_subset (k k2 : Nat) (h : k ≤ k2) :
    msgs.take k ⊆ msgs.take k2 := by
  intro a ha
  have h1 : msgs.take k = (msgs.take k2).take k := by
    rw [List.take_take]
    rw [Nat.min_eq_left h]
  rw [h1] at ha
  exact List.take_subset k (msgs.take k2) ha

/-- The ordering hypothesis without the bound on k. -/
theorem annBefore_all (S2 : AnnBefore ids ch uq stt msgs) :
    ∀ j ∈ ids, ∀ c ∈ ch j, ∀ k,
      Msg.complete j (uq j) (stt j) ∈ msgs.take k →
      Msg.announce j (uq j) c ∈ msgs.take k := by
  intro j hj c hc k hcm
  by_cases hk : k ≤ msgs.length
  · exact S2 j hj c hc k hk hcm
  · have hfull : msgs.take k = msgs := List.take_of_length_le (by omega)
    rw [hfull] at hcm ⊢
    have := S2 j hj c hc msgs.length (Nat.le_refl _)
    rw [List.take_of_length_le (Nat.le_refl _)] at this
    exact this hcm

/-- A message at position k does not occur in the prefix of length k of a
duplicate-free schedule. -/
theorem fresh_not_in_take (hnd : msgs.Nodup) (k : Nat) (m : Msg) (rest : List Msg)
    (hdrop : msgs.drop k = m :: rest) : m ∉ msgs.take k := by
  intro hin
  have hcount : 1 ≤ List.count m (msgs.take k) := List.one_le_count_iff.mpr hin
  have hcount2 : 1 ≤ List.count m (msgs.drop k) := by
    rw [hdrop]
    simp [List.count_cons]
  have hsplit : List.count m msgs =
      List.count m (msgs.take k) + List.count m (msgs.drop k) := by
    rw [← List.count_append, List.take_append_drop]
  have hle := (List.nodup_iff_count_le_one.mp hnd) m
  omega

/-- The prefix after reading one more message. -/
theorem take_succ_of_drop (k : Nat) (m : Msg) (rest : List Msg)
    (hdrop : msgs.drop k = m :: rest) :
    msgs.take (k + 1) = msgs.take k ++ [m] := by
  have h0 : msgs[k]? = some m := by
    have := List.getElem?_drop msgs k 0
    rw [hdrop] at this
    simpa using this.symm
  rw [List.take_succ, h0]
  rfl

/-- Membership in the adopted set. -/
theorem mem_adoptedSet (D : List String) (x : String) :
    x ∈ adoptedSet roots ch D ↔ (x ∈ roots ∨ ∃ j ∈ D, x ∈ ch j) := by
  unfold adoptedSet
  rw [List.mem_append, List.mem_flatMap]

/-- The adopted set after one more consumed parent. -/
theorem mem_adoptedSet_append (D : List String) (j x : String) :
    x ∈ adoptedSet roots ch (D ++ [j]) ↔
      (x ∈ adoptedSet roots ch D ∨ x ∈ ch j) := by
  rw [mem_adoptedSet, mem_adoptedSet]
  constructor
  · rintro (h | ⟨j2, hj2, hx⟩)
    · exact Or.inl (Or.inl h)
    · rcases List.mem_append.mp hj2 with h2 | h2
      · exact Or.inl (Or.inr ⟨j2, h2, hx⟩)
      · rw [List.mem_singleton] at h2
        subst h2
        exact Or.inr hx
  · rintro ((h | ⟨j2, hj2, hx⟩) | h)
    · exact Or.inl h
    · exact Or.inr ⟨j2, List.mem_append.mpr (Or.inl hj2), hx⟩
    · exact Or.inr ⟨j, List.mem_append.mpr (Or.inr (List.mem_singleton.mpr rfl)), h⟩

/-- Children of forest ids are edges. -/
theorem mem_edgesOf (j c : String) (hj : j ∈ ids) (hc : c ∈ ch j) :
    c ∈ edgesOf ids ch := by
  unfold edgesOf
  exact List.mem_flatMap.mpr ⟨j, hj, hc⟩

/-- The adopted set stays inside the forest. -/
theorem adoptedSet_sub_ids (W : SysWF roots ids ch) (D : List String)
    (hD : ∀ y ∈ D, y ∈ ids) :
    ∀ x ∈ adoptedSet roots ch D, x ∈ ids := by
  intro x hx
  rcases (mem_adoptedSet roots ch D x).mp hx with h | ⟨j, hj, hx2⟩
  · exact W.roots_sub x h
  · exact W.edges_sub x (mem_edgesOf ids ch j x (hD j hj) hx2)

/-- A consumed list never outgrows the forest. -/
theorem consumed_length_le (D : List String) (hnd : D.Nodup)
    (hsub : ∀ y ∈ D, y ∈ ids) : D.length ≤ ids.length :=
  List.Subperm.length_le (List.subperm_of_subset hnd hsub)

/-- The invariant holds initially: no notification read, the outstanding
set is the submitted roots, total is their number. -/
theorem invp_init (W : SysWF roots ids ch) :
    InvP roots ids ch uq stt msgs [] (initState roots) 0 [] := by
  refine
    { d_sub_ids := ?_, d_read := ?_, d_adopted := ?_, d_nodup := ?_,
      jobs_iff := ?_, jobs_nodup := ?_, unexp_iff := ?_, unexp_val := ?_,
      unexp_keys_nodup := ?_, early_shape := ?_, early_nodup := ?_,
      pend_shape := ?_, pend_nodup := ?_, early_pend_disj := ?_, part := ?_,
      sub_iff := ?_, sub_nodup := ?_, done_eq := ?_, total_eq := ?_,
      parents_first := ?_ }
  · intro x hx
    exact absurd hx (List.not_mem_nil x)
  · intro x hx
    exact absurd hx (List.not_mem_nil x)
  · intro x hx
    exact absurd hx (List.not_mem_nil x)
  · exact List.nodup_nil
  · intro x
    unfold initState adoptedSet
    simp
  · exact W.roots_nodup
  · intro x
    unfold initState readC
    constructor
    · rintro ⟨v, hv⟩
      simp [uGet] at hv
    · rintro ⟨h, _⟩
      simp [compIds] at h
  · intro x v hv
    simp [initState, uGet] at hv
  · simp [initState]
  · intro m hm
    simp [initState] at hm
  · simp [initState, compIds]
  · intro m hm
    exact absurd hm (List.not_mem_nil m)
  · simp [compIds]
  · intro x hx
    simp [initState, compIds] at hx
  · intro x
    unfold initState readC
    simp [uGet, compIds]
  · intro j hj x
    unfold initState alistGet
    simp
  · intro j hj
    simp [initState, alistGet]
  · rfl
  · simp [initState]
  · intro j hj c hc hcd
    exact absurd hcd (List.not_mem_nil c)

end SubjobRun

section SubjobRunSteps

variable (roots ids : List String) (ch : String → List String)
variable (uq : String → String) (stt : String → Status)
variable (msgs : List Msg)

/-- Completion-id membership. -/
theorem mem_compIds (l : List Msg) (y : String) :
    y ∈ compIds l ↔ ∃ u2 r2, Msg.complete y u2 r2 ∈ l := by
  unfold compIds
  rw [List.mem_filterMap]
  constructor
  · rintro ⟨m, hm, hc⟩
    match m, hc with
    | Msg.complete j u2 r2, hc =>
      have hj : j = y := by
        simpa [cId] using hc
      subst hj
      exact ⟨u2, r2, hm⟩
  · rintro ⟨u2, r2, hm⟩
    exact ⟨Msg.complete y u2 r2, hm, rfl⟩

/-- Completion ids distribute over append. -/
theorem compIds_append (l1 l2 : List Msg) :
    compIds (l1 ++ l2) = compIds l1 ++ compIds l2 := by
  unfold compIds
  exact List.filterMap_append l1 l2 cId

/-- The ids of parked completions popped by an adoption pass form a
sublist of the adopted ids. -/
theorem popped_ids_sublist (l : List (String × Msg)) (A : List String)
    (hval : ∀ c v, uGet l c = some v → cId v = some c) :
    (compIds (A.filterMap (fun c => uGet l c))).Sublist A := by
  induction A with
  | nil => simp [compIds]
  | cons c A' ih =>
    rw [List.filterMap_cons]
    cases hu : uGet l c with
    | none => exact List.Sublist.cons c ih
    | some m =>
      show (compIds (m :: A'.filterMap (fun c2 => uGet l c2))).Sublist (c :: A')
      unfold compIds
      rw [List.filterMap_cons, hval c m hu]
      exact List.Sublist.cons₂ c ih

/-- One consumption step preserves the invariant.  The step covers both a
fresh completion read from the schedule (knew is k plus one and the
pending list is empty) and the replay of a parked completion from the
current early batch (knew equals k and the completion heads the pending
list); the bridging hypotheses state what both situations guarantee. -/
theorem invp_consume (W : SysWF roots ids ch)
    (S1 : msgs.Perm (treeMsgs ids ch uq stt))
    (S2 : AnnBefore ids ch uq stt msgs)
    (D : List String) (st : ClientState) (k knew : Nat)
    (pendPre pendPost : List Msg) (x : String)
    (I : InvP roots ids ch uq stt msgs D st k pendPre)
    (hx : x ∈ st.jobs)
    (hxread : Msg.complete x (uq x) (stt x) ∈ msgs.take knew)
    (hread_iff : ∀ y, y ∈ readC msgs knew ↔ (y ∈ readC msgs k ∨ y = x))
    (hann_iff : ∀ p u2 c, Msg.announce p u2 c ∈ msgs.take knew ↔
      Msg.announce p u2 c ∈ msgs.take k)
    (hpend : pendPre = Msg.complete x (uq x) (stt x) :: pendPost ∨
      (pendPre = [] ∧ pendPost = []))
    (hxearly : x ∉ compIds st.early) :
    InvP roots ids ch uq stt msgs (D ++ [x])
      (processMsg st (Msg.complete x (uq x) (stt x))) knew pendPost := by
  obtain ⟨hxA, hxD⟩ := (I.jobs_iff x).mp hx
  have hx_ids : x ∈ ids := adoptedSet_sub_ids roots ids ch W D I.d_sub_ids x hxA
  have hA_nodup := I.sub_nodup x hx_ids
  have hA_iff := I.sub_iff x hx_ids
  have hA_all : ∀ c ∈ ch x, c ∈ alistGet st.subjobs (x, uq x) := by
    intro c hc
    have hann : Msg.announce x (uq x) c ∈ msgs.take knew :=
      annBefore_all ids ch uq stt msgs S2 x hx_ids c hc knew hxread
    exact (hA_iff c).mpr ⟨hc, (hann_iff x (uq x) c).mp hann⟩
  have hA_ch : ∀ c ∈ alistGet st.subjobs (x, uq x), c ∈ ch x :=
    fun c hcA => ((hA_iff c).mp hcA).1
  have hA_set : ∀ c, c ∈ alistGet st.subjobs (x, uq x) ↔ c ∈ ch x :=
    fun c => ⟨hA_ch c, hA_all c⟩
  have hchnd := ch_nodup roots ids ch W x hx_ids
  have hA_len : (alistGet st.subjobs (x, uq x)).length = (ch x).length :=
    ((List.perm_ext_iff_of_nodup hA_nodup hchnd).mpr hA_set).length_eq
  have hxchx : x ∉ ch x := by
    intro hxin
    rcases (mem_adoptedSet roots ch D x).mp hxA with hr | ⟨j2, hj2, hx2⟩
    · exact W.roots_edges x hr (mem_edgesOf ids ch x x hx_ids hxin)
    · have := uniqueParent roots ids ch W x hx_ids j2 (I.d_sub_ids j2 hj2) x hxin hx2
      exact hxD (this ▸ hj2)
  have hAjobs : ∀ c ∈ alistGet st.subjobs (x, uq x), c ∉ st.jobs := by
    intro c hcA hcj
    obtain ⟨hcAd, hcD⟩ := (I.jobs_iff c).mp hcj
    rcases (mem_adoptedSet roots ch D c).mp hcAd with hr | ⟨j2, hj2, hc2⟩
    · exact W.roots_edges c hr (mem_edgesOf ids ch x c hx_ids (hA_ch c hcA))
    · have := uniqueParent roots ids ch W x hx_ids j2 (I.d_sub_ids j2 hj2) c
        (hA_ch c hcA) hc2
      exact hxD (this ▸ hj2)
  have hAD : ∀ c ∈ alistGet st.subjobs (x, uq x), c ∉ D :=
    fun c hcA hcD => hxD (I.parents_first x hx_ids c (hA_ch c hcA) hcD)
  have hAx : ∀ c ∈ alistGet st.subjobs (x, uq x), c ≠ x :=
    fun c hcA he => hxchx (he ▸ hA_ch c hcA)
  obtain ⟨j_iff, j_nd, u_eq, e_eq, s_eq, t_eq, d_eq, p_eq, f_eq, u_nd⟩ :=
    processMsg_consume st x (uq x) (stt x) hx hA_nodup
  have hxreadnew : x ∈ readC msgs knew :=
    (mem_readC ids ch uq stt msgs S1 x knew).mpr hxread
  have hDx_nodup : (D ++ [x]).Nodup := by
    rw [List.nodup_append]
    refine ⟨I.d_nodup, List.nodup_singleton x, ?_⟩
    intro y hy hy2
    rw [List.mem_singleton] at hy2
    exact hxD (hy2 ▸ hy)
  have hmem_erase : ∀ y, y ∈ st.jobs.erase x ↔ (y ≠ x ∧ y ∈ st.jobs) :=
    fun y => List.Nodup.mem_erase_iff I.jobs_nodup
  have hearly_ids : ∀ y, y ∈ compIds st.early → y ∈ st.jobs ∧ y ∈ readC msgs k := by
    intro y hy
    obtain ⟨u2, r2, hm⟩ := (mem_compIds st.early y).mp hy
    obtain ⟨y2, heq, hj2, hr2⟩ := I.early_shape _ hm
    obtain ⟨he1, _, _⟩ := Msg.complete.inj heq
    subst he1
    exact ⟨hj2, hr2⟩
  have hpost_shape : ∀ m ∈ pendPost, ∃ y, m = Msg.complete y (uq y) (stt y) ∧
      y ∈ st.jobs ∧ y ∈ readC msgs k ∧ y ≠ x := by
    intro m hm
    rcases hpend with hpp | ⟨hp1, hp2⟩
    · have hmpre : m ∈ pendPre := by
        rw [hpp]
        exact List.mem_cons_of_mem _ hm
      obtain ⟨y, heq, hyj, hyr⟩ := I.pend_shape _ hmpre
      have hprend := I.pend_nodup
      rw [hpp] at hprend
      have hpreids : compIds (Msg.complete x (uq x) (stt x) :: pendPost) =
          x :: compIds pendPost := by
        unfold compIds
        rw [List.filterMap_cons]
        rfl
      rw [hpreids] at hprend
      have hxnp : x ∉ compIds pendPost := (List.nodup_cons.mp hprend).1
      have hyids : y ∈ compIds pendPost := by
        rw [mem_compIds]
        exact ⟨uq y, stt y, heq ▸ hm⟩
      refine ⟨y, heq, hyj, hyr, ?_⟩
      intro he
      exact hxnp (he ▸ hyids)
    · rw [hp2] at hm
      exact absurd hm (List.not_mem_nil m)
  have hpost_nodup : (compIds pendPost).Nodup := by
    rcases hpend with hpp | ⟨hp1, hp2⟩
    · have hprend := I.pend_nodup
      rw [hpp] at hprend
      have hpreids : compIds (Msg.complete x (uq x) (stt x) :: pendPost) =
          x :: compIds pendPost := by
        unfold compIds
        rw [List.filterMap_cons]
        rfl
      rw [hpreids] at hprend
      exact (List.nodup_cons.mp hprend).2
    · rw [hp2]
      simp [compIds]
  have hval : ∀ c v, uGet st.unexpected c = some v → cId v = some c := by
    intro c v hv
    rw [I.unexp_val c v hv]
    rfl
  have hpop_sub :=
    popped_ids_sublist st.unexpected (alistGet st.subjobs (x, uq x)) hval
  have hpopped_ids : ∀ y,
      y ∈ compIds ((alistGet st.subjobs (x, uq x)).filterMap
        (fun c => uGet st.unexpected c)) ↔
      (y ∈ alistGet st.subjobs (x, uq x) ∧ ∃ v, uGet st.unexpected y = some v) := by
    intro y
    constructor
    · intro hy
      obtain ⟨u2, r2, hm⟩ := (mem_compIds _ y).mp hy
      obtain ⟨c, hcA, hcu⟩ := List.mem_filterMap.mp hm
      have hcv := I.unexp_val c _ hcu
      obtain ⟨he1, he2, he3⟩ := Msg.complete.inj hcv
      subst he1
      exact ⟨hcA, ⟨_, hcu⟩⟩
    · rintro ⟨hyA, v, hv⟩
      rw [mem_compIds]
      have hvc := I.unexp_val y v hv
      exact ⟨uq y, stt y, List.mem_filterMap.mpr ⟨y, hyA, hvc ▸ hv⟩⟩
  have hf_jobs_iff : ∀ y, y ∈ (processMsg st (Msg.complete x (uq x) (stt x))).jobs ↔
      (y ∈ adoptedSet roots ch (D ++ [x]) ∧ y ∉ D ++ [x]) := by
    intro y
    rw [j_iff y]
    constructor
    · rintro (hy | hy)
      · obtain ⟨hyx, hyj⟩ := (hmem_erase y).mp hy
        obtain ⟨hyA, hyD⟩ := (I.jobs_iff y).mp hyj
        refine ⟨(mem_adoptedSet_append roots ch D x y).mpr (Or.inl hyA), ?_⟩
        intro hmem
        rcases List.mem_append.mp hmem with h | h
        · exact hyD h
        · exact hyx (List.mem_singleton.mp h)
      · refine ⟨(mem_adoptedSet_append roots ch D x y).mpr (Or.inr (hA_ch y hy)), ?_⟩
        intro hmem
        rcases List.mem_append.mp hmem with h | h
        · exact hAD y hy h
        · exact hAx y hy (List.mem_singleton.mp h)
    · rintro ⟨hyA, hyD⟩
      have hynx : y ≠ x := by
        intro he
        exact hyD (he ▸ List.mem_append.mpr (Or.inr (List.mem_singleton.mpr rfl)))
      have hynD : y ∉ D := fun h => hyD (List.mem_append.mpr (Or.inl h))
      rcases (mem_adoptedSet_append roots ch D x y).mp hyA with h | h
      · exact Or.inl ((hmem_erase y).mpr ⟨hynx, (I.jobs_iff y).mpr ⟨h, hynD⟩⟩)
      · exact Or.inr (hA_all y h)
  have hf_unexp_iff : ∀ y,
      (∃ v, uGet (processMsg st (Msg.complete x (uq x) (stt x))).unexpected y = some v) ↔
      (y ∈ readC msgs knew ∧ y ∉ adoptedSet roots ch (D ++ [x])) := by
    intro y
    rw [u_eq y]
    by_cases hyA : y ∈ alistGet st.subjobs (x, uq x)
    · rw [if_pos hyA]
      constructor
      · rintro ⟨v, hv⟩
        exact Option.noConfusion hv
      · rintro ⟨_, hna⟩
        exact absurd ((mem_adoptedSet_append roots ch D x y).mpr
          (Or.inr (hA_ch y hyA))) hna
    · rw [if_neg hyA]
      rw [I.unexp_iff y]
      constructor
      · rintro ⟨hrd, hna⟩
        refine ⟨(hread_iff y).mpr (Or.inl hrd), ?_⟩
        intro hmem
        rcases (mem_adoptedSet_append roots ch D x y).mp hmem with h | h
        · exact hna h
        · exact hyA (hA_all y h)
      · rintro ⟨hrd, hna⟩
        have hnaD : y ∉ adoptedSet roots ch D :=
          fun h => hna ((mem_adoptedSet_append roots ch D x y).mpr (Or.inl h))
        rcases (hread_iff y).mp hrd with h | h
        · exact ⟨h, hnaD⟩
        · exact absurd ((mem_adoptedSet_append roots ch D x y).mpr (Or.inl
            (h ▸ hxA))) hna
  have hf_early_shape : ∀ m ∈ (processMsg st (Msg.complete x (uq x) (stt x))).early,
      ∃ y, m = Msg.complete y (uq y) (stt y) ∧
        y ∈ (processMsg st (Msg.complete x (uq x) (stt x))).jobs ∧
        y ∈ readC msgs knew := by
    intro m hm
    rw [e_eq] at hm
    rcases List.mem_append.mp hm with hm2 | hm2
    · obtain ⟨y, heq, hyj, hyr⟩ := I.early_shape _ hm2
      have hyids : y ∈ compIds st.early := by
        rw [mem_compIds]
        exact ⟨uq y, stt y, heq ▸ hm2⟩
      have hynx : y ≠ x := fun he => hxearly (he ▸ hyids)
      refine ⟨y, heq, ?_, (hread_iff y).mpr (Or.inl hyr)⟩
      rw [j_iff y]
      exact Or.inl ((hmem_erase y).mpr ⟨hynx, hyj⟩)
    · obtain ⟨c, hcA, hcu⟩ := List.mem_filterMap.mp hm2
      have hcv := I.unexp_val c _ hcu
      have hcr : c ∈ readC msgs k := ((I.unexp_iff c).mp ⟨m, hcu⟩).1
      refine ⟨c, hcv, ?_, (hread_iff c).mpr (Or.inl hcr)⟩
      rw [j_iff c]
      exact Or.inr hcA
  have hf_early_nodup :
      (compIds (processMsg st (Msg.complete x (uq x) (stt x))).early).Nodup := by
    rw [e_eq, compIds_append, List.nodup_append]
    refine ⟨I.early_nodup, List.Sublist.nodup hpop_sub hA_nodup, ?_⟩
    intro y hy hy2
    have hyj := (hearly_ids y hy).1
    have hyA := ((hpopped_ids y).mp hy2).1
    exact hAjobs y hyA hyj
  have hf_pend_shape : ∀ m ∈ pendPost,
      ∃ y, m = Msg.complete y (uq y) (stt y) ∧
        y ∈ (processMsg st (Msg.complete x (uq x) (stt x))).jobs ∧
        y ∈ readC msgs knew := by
    intro m hm
    obtain ⟨y, heq, hyj, hyr, hynx⟩ := hpost_shape m hm
    refine ⟨y, heq, ?_, (hread_iff y).mpr (Or.inl hyr)⟩
    rw [j_iff y]
    exact Or.inl ((hmem_erase y).mpr ⟨hynx, hyj⟩)
  refine
    { d_sub_ids := ?_, d_read := ?_, d_adopted := ?_, d_nodup := hDx_nodup,
      jobs_iff := hf_jobs_iff, jobs_nodup := j_nd I.jobs_nodup,
      unexp_iff := hf_unexp_iff, unexp_val := ?_,
      unexp_keys_nodup := u_nd I.unexp_keys_nodup,
      early_shape := hf_early_shape, early_nodup := hf_early_nodup,
      pend_shape := hf_pend_shape, pend_nodup := hpost_nodup,
      early_pend_disj := ?_, part := ?_, sub_iff := ?_, sub_nodup := ?_,
      done_eq := ?_, total_eq := ?_, parents_first := ?_ }
  · intro y hy
    rcases List.mem_append.mp hy with h | h
    · exact I.d_sub_ids y h
    · exact (List.mem_singleton.mp h) ▸ hx_ids
  · intro y hy
    rcases List.mem_append.mp hy with h | h
    · exact (hread_iff y).mpr (Or.inl (I.d_read y h))
    · exact (List.mem_singleton.mp h) ▸ hxreadnew
  · intro y hy
    rcases List.mem_append.mp hy with h | h
    · exact (mem_adoptedSet_append roots ch D x y).mpr (Or.inl (I.d_adopted y h))
    · rw [List.mem_singleton.mp h]
      exact (mem_adoptedSet_append roots ch D x x).mpr (Or.inl hxA)
  · intro y v hv
    rw [u_eq y] at hv
    by_cases hyA : y ∈ alistGet st.subjobs (x, uq x)
    · rw [if_pos hyA] at hv
      exact Option.noConfusion hv
    · rw [if_neg hyA] at hv
      exact I.unexp_val y v hv
  · intro y hy hy2
    obtain ⟨u2, r2, hm2⟩ := (mem_compIds pendPost y).mp hy2
    obtain ⟨y2, heq2, hyj2, _, _⟩ := hpost_shape _ hm2
    obtain ⟨hee, _, _⟩ := Msg.complete.inj heq2
    subst hee
    rw [e_eq, compIds_append] at hy
    rcases List.mem_append.mp hy with h | h
    · rcases hpend with hpp | ⟨hp1, hp2⟩
      · have hnp := I.early_pend_disj y h
        rw [hpp] at hnp
        have : y ∈ compIds (Msg.complete x (uq x) (stt x) :: pendPost) := by
          unfold compIds
          rw [List.filterMap_cons]
          exact List.mem_cons_of_mem x hy2
        exact hnp this
      · rw [hp2] at hy2
        exact absurd hy2 (List.not_mem_nil y)
    · have hyA := ((hpopped_ids y).mp h).1
      exact hAjobs y hyA hyj2
  · intro y
    constructor
    · intro hy
      rcases (hread_iff y).mp hy with h | h
      · rcases (I.part y).mp h with h2 | h2 | h2 | h2
        · exact Or.inl (List.mem_append.mpr (Or.inl h2))
        · by_cases hyA : y ∈ alistGet st.subjobs (x, uq x)
          · refine Or.inr (Or.inr (Or.inl ?_))
            rw [e_eq, compIds_append]
            exact List.mem_append.mpr (Or.inr ((hpopped_ids y).mpr ⟨hyA, h2⟩))
          · refine Or.inr (Or.inl ?_)
            obtain ⟨v, hv⟩ := h2
            refine ⟨v, ?_⟩
            rw [u_eq y, if_neg hyA]
            exact hv
        · refine Or.inr (Or.inr (Or.inl ?_))
          rw [e_eq, compIds_append]
          exact List.mem_append.mpr (Or.inl h2)
        · rcases hpend with hpp | ⟨hp1, hp2⟩
          · rw [hpp] at h2
            have hpreids : compIds (Msg.complete x (uq x) (stt x) :: pendPost) =
                x :: compIds pendPost := by
              unfold compIds
              rw [List.filterMap_cons]
              rfl
            rw [hpreids] at h2
            rcases List.mem_cons.mp h2 with h3 | h3
            · exact Or.inl (List.mem_append.mpr (Or.inr (List.mem_singleton.mpr h3)))
            · exact Or.inr (Or.inr (Or.inr h3))
          · rw [hp1] at h2
            simp [compIds] at h2
      · exact Or.inl (List.mem_append.mpr (Or.inr (List.mem_singleton.mpr h)))
    · rintro (h | h | h | h)
      · rcases List.mem_append.mp h with h2 | h2
        · exact (hread_iff y).mpr (Or.inl (I.d_read y h2))
        · exact (List.mem_singleton.mp h2) ▸ hxreadnew
      · exact ((hf_unexp_iff y).mp h).1
      · obtain ⟨u2, r2, hm2⟩ := (mem_compIds _ y).mp h
        obtain ⟨y2, heq2, _, hyr2⟩ := hf_early_shape _ hm2
        obtain ⟨hee, _, _⟩ := Msg.complete.inj heq2
        exact hee ▸ hyr2
      · obtain ⟨u2, r2, hm2⟩ := (mem_compIds _ y).mp h
        obtain ⟨y2, heq2, _, hyr2⟩ := hf_pend_shape _ hm2
        obtain ⟨hee, _, _⟩ := Msg.complete.inj heq2
        exact hee ▸ hyr2
  · intro j hj x2
    rw [s_eq]
    rw [I.sub_iff j hj x2]
    constructor
    · rintro ⟨h1, h2⟩
      exact ⟨h1, (hann_iff j (uq j) x2).mpr h2⟩
    · rintro ⟨h1, h2⟩
      exact ⟨h1, (hann_iff j (uq j) x2).mp h2⟩
  · intro j hj
    rw [s_eq]
    exact I.sub_nodup j hj
  · rw [d_eq, I.done_eq, List.length_append]
    rfl
  · rw [t_eq, I.total_eq, hA_len, List.flatMap_append, List.length_append]
    have : ([x].flatMap ch).length = (ch x).length := by
      simp
    omega
  · intro j hj c hc hcD
    rcases List.mem_append.mp hcD with h | h
    · exact List.mem_append.mpr (Or.inl (I.parents_first j hj c hc h))
    · rw [List.mem_singleton.mp h] at hc
      rcases (mem_adoptedSet roots ch D x).mp hxA with hr | ⟨j2, hj2, hx2⟩
      · exact absurd (mem_edgesOf ids ch j x hj hc) (W.roots_edges x hr)
      · have := uniqueParent roots ids ch W j hj j2 (I.d_sub_ids j2 hj2) x hc hx2
        exact List.mem_append.mpr (Or.inl (this ▸ hj2))

/-- Keys of the unexpected dictionary after removal. -/
theorem mem_uRemove_keys (l : List (String × Msg)) (k2 y : String) :
    y ∈ (uRemove l k2).map Prod.fst ↔ (y ∈ l.map Prod.fst ∧ y ≠ k2) := by
  constructor
  · intro hy
    obtain ⟨p, hp, he⟩ := List.mem_map.mp hy
    have hf := List.of_mem_filter hp
    have hne : ¬ p.1 = k2 := by
      simpa using hf
    refine ⟨List.mem_map.mpr ⟨p, List.mem_of_mem_filter hp, he⟩, ?_⟩
    rw [← he]
    exact hne
  · rintro ⟨hy, hne⟩
    obtain ⟨p, hp, he⟩ := List.mem_map.mp hy
    refine List.mem_map.mpr ⟨p, ?_, he⟩
    apply List.mem_filter.mpr
    refine ⟨hp, ?_⟩
    simp only [Bool.not_eq_eq_eq_not, Bool.not_true, decide_eq_false_iff_not]
    rw [he]
    exact hne

/-- The unexpected dictionary keeps duplicate-free keys under
insertion. -/
theorem uInsert_keys_nodup (l : List (String × Msg)) (k2 : String) (m : Msg)
    (h : (l.map Prod.fst).Nodup) : ((uInsert l k2 m).map Prod.fst).Nodup := by
  unfold uInsert
  rw [List.map_append, List.nodup_append]
  refine ⟨List.Sublist.nodup (uRemove_keys_sublist l k2) h, by simp, ?_⟩
  intro y hy hy2
  have he : y = k2 := by
    simpa using hy2
  exact ((mem_uRemove_keys l k2 y).mp hy).2 he

/-- The read ids after reading one more completion. -/
theorem readC_succ_complete (k : Nat) (x : String) (u2 : String) (r2 : Status)
    (rest : List Msg) (hdrop : msgs.drop k = Msg.complete x u2 r2 :: rest) :
    ∀ y, y ∈ readC msgs (k + 1) ↔ (y ∈ readC msgs k ∨ y = x) := by
  intro y
  unfold readC
  rw [take_succ_of_drop msgs k _ rest hdrop, compIds_append]
  rw [List.mem_append]
  constructor
  · rintro (h | h)
    · exact Or.inl h
    · right
      simpa [compIds, cId] using h
  · rintro (h | h)
    · exact Or.inl h
    · right
      subst h
      simp [compIds, cId]

/-- The read ids are unchanged by reading an announcement. -/
theorem readC_succ_announce (k : Nat) (p u2 c : String) (rest : List Msg)
    (hdrop : msgs.drop k = Msg.announce p u2 c :: rest) :
    readC msgs (k + 1) = readC msgs k := by
  unfold readC
  rw [take_succ_of_drop msgs k _ rest hdrop, compIds_append]
  simp [compIds, cId]

/-- Announcement membership is unchanged by reading a completion. -/
theorem ann_succ_complete (k : Nat) (x : String) (u2 : String) (r2 : Status)
    (rest : List Msg) (hdrop : msgs.drop k = Msg.complete x u2 r2 :: rest) :
    ∀ p u3 c, Msg.announce p u3 c ∈ msgs.take (k + 1) ↔
      Msg.announce p u3 c ∈ msgs.take k := by
  intro p u3 c
  rw [take_succ_of_drop msgs k _ rest hdrop, List.mem_append]
  constructor
  · rintro (h | h)
    · exact h
    · rw [List.mem_singleton] at h
      exact Msg.noConfusion h
  · intro h
    exact Or.inl h

/-- A parked fresh completion preserves the invariant. -/
theorem invp_park (W : SysWF roots ids ch)
    (S1 : msgs.Perm (treeMsgs ids ch uq stt))
    (D : List String) (st : ClientState) (k : Nat) (x : String) (rest : List Msg)
    (I : InvP roots ids ch uq stt msgs D st k [])
    (hx : x ∉ st.jobs)
    (hdrop : msgs.drop k = Msg.complete x (uq x) (stt x) :: rest) :
    InvP roots ids ch uq stt msgs D
      (processMsg st (Msg.complete x (uq x) (stt x))) (k + 1) [] := by
  have hnd := msgs_nodup roots ids ch uq stt msgs W S1
  have hnotin : Msg.complete x (uq x) (stt x) ∉ msgs.take k :=
    fresh_not_in_take msgs hnd k _ rest hdrop
  have hxnotread : x ∉ readC msgs k := by
    intro h
    exact hnotin ((mem_readC ids ch uq stt msgs S1 x k).mp h)
  have hread := readC_succ_complete msgs k x (uq x) (stt x) rest hdrop
  have hann := ann_succ_complete msgs k x (uq x) (stt x) rest hdrop
  have hxD : x ∉ D := fun h => hxnotread (I.d_read x h)
  have hxnA : x ∉ adoptedSet roots ch D :=
    fun h => hx ((I.jobs_iff x).mpr ⟨h, hxD⟩)
  have hxreadnew : x ∈ readC msgs (k + 1) := (hread x).mpr (Or.inr rfl)
  rw [processMsg_park st x (uq x) (stt x) hx]
  have hug : ∀ y, uGet (uInsert st.unexpected x (Msg.complete x (uq x) (stt x))) y =
      if y = x then some (Msg.complete x (uq x) (stt x)) else uGet st.unexpected y :=
    fun y => uGet_uInsert st.unexpected x y _
  refine
    { d_sub_ids := I.d_sub_ids, d_read := ?_, d_adopted := I.d_adopted,
      d_nodup := I.d_nodup, jobs_iff := I.jobs_iff, jobs_nodup := I.jobs_nodup,
      unexp_iff := ?_, unexp_val := ?_, unexp_keys_nodup := ?_,
      early_shape := ?_, early_nodup := I.early_nodup,
      pend_shape := ?_, pend_nodup := I.pend_nodup,
      early_pend_disj := I.early_pend_disj, part := ?_, sub_iff := ?_,
      sub_nodup := I.sub_nodup, done_eq := I.done_eq, total_eq := I.total_eq,
      parents_first := I.parents_first }
  · intro y hy
    exact (hread y).mpr (Or.inl (I.d_read y hy))
  · intro y
    rw [hug y]
    by_cases hy : y = x
    · rw [if_pos hy]
      subst hy
      constructor
      · intro _
        exact ⟨hxreadnew, hxnA⟩
      · intro _
        exact ⟨_, rfl⟩
    · rw [if_neg hy]
      rw [I.unexp_iff y]
      constructor
      · rintro ⟨h1, h2⟩
        exact ⟨(hread y).mpr (Or.inl h1), h2⟩
      · rintro ⟨h1, h2⟩
        rcases (hread y).mp h1 with h3 | h3
        · exact ⟨h3, h2⟩
        · exact absurd h3 hy
  · intro y v hv
    rw [hug y] at hv
    by_cases hy : y = x
    · rw [if_pos hy] at hv
      subst hy
      exact (Option.some.inj hv).symm
    · rw [if_neg hy] at hv
      exact I.unexp_val y v hv
  · exact uInsert_keys_nodup st.unexpected x _ I.unexp_keys_nodup
  · intro m hm
    obtain ⟨y, heq, hyj, hyr⟩ := I.early_shape m hm
    exact ⟨y, heq, hyj, (hread y).mpr (Or.inl hyr)⟩
  · intro m hm
    exact absurd hm (List.not_mem_nil m)
  · intro y
    constructor
    · intro hy
      rcases (hread y).mp hy with h | h
      · rcases (I.part y).mp h with h2 | h2 | h2 | h2
        · exact Or.inl h2
        · refine Or.inr (Or.inl ?_)
          obtain ⟨v, hv⟩ := h2
          refine ⟨v, ?_⟩
          rw [hug y]
          have hyx : ¬ y = x := by
            intro he
            exact hxnotread (he ▸ h)
          rw [if_neg hyx]
          exact hv
        · exact Or.inr (Or.inr (Or.inl h2))
        · exact absurd h2 (by simp [compIds])
      · subst h
        refine Or.inr (Or.inl ?_)
        refine ⟨Msg.complete y (uq y) (stt y), ?_⟩
        rw [hug y, if_pos rfl]
    · rintro (h | h | h | h)
      · exact (hread y).mpr (Or.inl (I.d_read y h))
      · obtain ⟨v, hv⟩ := h
        rw [hug y] at hv
        by_cases hy : y = x
        · exact hy ▸ hxreadnew
        · rw [if_neg hy] at hv
          exact (hread y).mpr (Or.inl ((I.unexp_iff y).mp ⟨v, hv⟩).1)
      · obtain ⟨u2, r2, hm2⟩ := (mem_compIds _ y).mp h
        obtain ⟨y2, heq2, _, hyr2⟩ := I.early_shape _ hm2
        obtain ⟨hee, _, _⟩ := Msg.complete.inj heq2
        exact (hread y).mpr (Or.inl (hee ▸ hyr2))
      · exact absurd h (by simp [compIds])
  · intro j hj x2
    rw [I.sub_iff j hj x2]
    constructor
    · rintro ⟨h1, h2⟩
      exact ⟨h1, (hann j (uq j) x2).mpr h2⟩
    · rintro ⟨h1, h2⟩
      exact ⟨h1, (hann j (uq j) x2).mp h2⟩

/-- A fresh announcement preserves the invariant. -/
theorem invp_announce
    (D : List String) (st : ClientState) (k : Nat) (p0 c0 : String)
    (rest : List Msg)
    (I : InvP roots ids ch uq stt msgs D st k [])
    (hdrop : msgs.drop k = Msg.announce p0 (uq p0) c0 :: rest)
    (hp0 : p0 ∈ ids) (hc0 : c0 ∈ ch p0) :
    InvP roots ids ch uq stt msgs D
      (processMsg st (Msg.announce p0 (uq p0) c0)) (k + 1) [] := by
  have hread := readC_succ_announce msgs k p0 (uq p0) c0 rest hdrop
  have htake := take_succ_of_drop msgs k _ rest hdrop
  rw [processMsg_announce]
  refine
    { d_sub_ids := I.d_sub_ids, d_read := ?_, d_adopted := I.d_adopted,
      d_nodup := I.d_nodup, jobs_iff := I.jobs_iff, jobs_nodup := I.jobs_nodup,
      unexp_iff := ?_, unexp_val := I.unexp_val,
      unexp_keys_nodup := I.unexp_keys_nodup,
      early_shape := ?_, early_nodup := I.early_nodup,
      pend_shape := ?_, pend_nodup := I.pend_nodup,
      early_pend_disj := I.early_pend_disj, part := ?_, sub_iff := ?_,
      sub_nodup := ?_, done_eq := I.done_eq, total_eq := I.total_eq,
      parents_first := I.parents_first }
  · intro y hy
    rw [hread]
    exact I.d_read y hy
  · intro y
    rw [hread]
    exact I.unexp_iff y
  · intro m hm
    obtain ⟨y, heq, hyj, hyr⟩ := I.early_shape m hm
    rw [hread]
    exact ⟨y, heq, hyj, hyr⟩
  · intro m hm
    exact absurd hm (List.not_mem_nil m)
  · intro y
    rw [hread]
    exact I.part y
  · intro j hj x2
    by_cases hkey : (j, uq j) = (p0, uq p0)
    · have hjp : j = p0 := congrArg Prod.fst hkey
      subst hjp
      rw [alistGet_insertSub_same, mem_setInsert]
      rw [I.sub_iff j hj x2]
      rw [htake]
      constructor
      · rintro (⟨h1, h2⟩ | h1)
        · exact ⟨h1, List.mem_append.mpr (Or.inl h2)⟩
        · subst h1
          exact ⟨hc0, List.mem_append.mpr (Or.inr (List.mem_singleton.mpr rfl))⟩
      · rintro ⟨h1, h2⟩
        rcases List.mem_append.mp h2 with h3 | h3
        · exact Or.inl ⟨h1, h3⟩
        · rw [List.mem_singleton] at h3
          obtain ⟨_, _, he3⟩ := Msg.announce.inj h3
          exact Or.inr he3
    · rw [alistGet_insertSub_ne st.subjobs (p0, uq p0) (j, uq j) c0 hkey]
      rw [I.sub_iff j hj x2]
      rw [htake]
      constructor
      · rintro ⟨h1, h2⟩
        exact ⟨h1, List.mem_append.mpr (Or.inl h2)⟩
      · rintro ⟨h1, h2⟩
        rcases List.mem_append.mp h2 with h3 | h3
        · exact ⟨h1, h3⟩
        · rw [List.mem_singleton] at h3
          obtain ⟨he1, he2, _⟩ := Msg.announce.inj h3
          exact absurd (by rw [he1]) hkey
  · intro j hj
    by_cases hkey : (j, uq j) = (p0, uq p0)
    · have hjp : j = p0 := congrArg Prod.fst hkey
      subst hjp
      rw [alistGet_insertSub_same]
      exact setInsert_nodup _ _ (I.sub_nodup j hj)
    · rw [alistGet_insertSub_ne st.subjobs (p0, uq p0) (j, uq j) c0 hkey]
      exact I.sub_nodup j hj

/-- The canonical completion of a forest id occurs in the schedule. -/
theorem complete_mem_msgs (S1 : msgs.Perm (treeMsgs ids ch uq stt)) (j : String)
    (hj : j ∈ ids) : Msg.complete j (uq j) (stt j) ∈ msgs := by
  apply S1.mem_iff.mpr
  unfold treeMsgs
  exact List.mem_append.mpr (Or.inl (List.mem_map.mpr ⟨j, hj, rfl⟩))

/-- Entering an early-replay batch: the replay list becomes the pending
batch and is cleared in the state. -/
theorem invp_to_pending (D : List String) (st : ClientState) (k : Nat)
    (I : InvP roots ids ch uq stt msgs D st k []) :
    InvP roots ids ch uq stt msgs D { st with early := [] } k st.early := by
  refine
    { d_sub_ids := I.d_sub_ids, d_read := I.d_read, d_adopted := I.d_adopted,
      d_nodup := I.d_nodup, jobs_iff := I.jobs_iff, jobs_nodup := I.jobs_nodup,
      unexp_iff := I.unexp_iff, unexp_val := I.unexp_val,
      unexp_keys_nodup := I.unexp_keys_nodup,
      early_shape := ?_, early_nodup := ?_, pend_shape := I.early_shape,
      pend_nodup := I.early_nodup, early_pend_disj := ?_, part := ?_,
      sub_iff := I.sub_iff, sub_nodup := I.sub_nodup, done_eq := I.done_eq,
      total_eq := I.total_eq, parents_first := I.parents_first }
  · intro m hm
    exact absurd hm (List.not_mem_nil m)
  · simp [compIds]
  · intro y hy
    simp [compIds] at hy
  · intro y
    rw [I.part y]
    constructor
    · rintro (h | h | h | h)
      · exact Or.inl h
      · exact Or.inr (Or.inl h)
      · exact Or.inr (Or.inr (Or.inr h))
      · simp [compIds] at h
    · rintro (h | h | h | h)
      · exact Or.inl h
      · exact Or.inr (Or.inl h)
      · simp [compIds] at h
      · exact Or.inr (Or.inr (Or.inl h))

/-- Processing a whole early-replay batch consumes exactly its
completions. -/
theorem invp_early_batch (W : SysWF roots ids ch)
    (S1 : msgs.Perm (treeMsgs ids ch uq stt))
    (S2 : AnnBefore ids ch uq stt msgs) :
    ∀ (P : List Msg) (D : List String) (st : ClientState) (k : Nat),
      InvP roots ids ch uq stt msgs D st k P →
      ∃ Δ, Δ.length = P.length ∧
        InvP roots ids ch uq stt msgs (D ++ Δ) (processBatch st P) k [] := by
  intro P
  induction P with
  | nil =>
    intro D st k I
    refine ⟨[], rfl, ?_⟩
    rw [List.append_nil]
    exact I
  | cons m P' ih =>
    intro D st k I
    obtain ⟨x, heq, hxj, hxr⟩ := I.pend_shape m (List.mem_cons_self m P')
    subst heq
    have hstep : processBatch st (Msg.complete x (uq x) (stt x) :: P') =
        processBatch (processMsg st (Msg.complete x (uq x) (stt x))) P' := rfl
    have hxpend : x ∈ compIds (Msg.complete x (uq x) (stt x) :: P') := by
      rw [mem_compIds]
      exact ⟨uq x, stt x, List.mem_cons_self _ _⟩
    have I2 : InvP roots ids ch uq stt msgs (D ++ [x])
        (processMsg st (Msg.complete x (uq x) (stt x))) k P' := by
      apply invp_consume roots ids ch uq stt msgs W S1 S2 D st k k
        (Msg.complete x (uq x) (stt x) :: P') P' x I hxj
      · exact (mem_readC ids ch uq stt msgs S1 x k).mp hxr
      · intro y
        constructor
        · intro h
          exact Or.inl h
        · rintro (h | h)
          · exact h
          · exact h ▸ hxr
      · intro p u2 c
        exact Iff.rfl
      · exact Or.inl rfl
      · intro hxe
        exact I.early_pend_disj x hxe hxpend
    obtain ⟨Δ', hlen, I3⟩ := ih (D ++ [x]) _ k I2
    refine ⟨x :: Δ', ?_, ?_⟩
    · rw [List.length_cons, hlen, List.length_cons]
    · rw [hstep]
      have hassoc : D ++ x :: Δ' = (D ++ [x]) ++ Δ' := by
        rw [List.append_assoc]
        rfl
      rw [hassoc]
      exact I3

/-- Processing a fresh batch from the control queue preserves the
invariant, advancing the read count by the batch length. -/
theorem invp_stream_batch (W : SysWF roots ids ch)
    (S1 : msgs.Perm (treeMsgs ids ch uq stt))
    (S2 : AnnBefore ids ch uq stt msgs) :
    ∀ (B : List Msg) (D : List String) (st : ClientState) (k : Nat)
      (tail : List Msg),
      InvP roots ids ch uq stt msgs D st k [] →
      msgs.drop k = B ++ tail →
      ∃ Δ, InvP roots ids ch uq stt msgs (D ++ Δ) (processBatch st B)
        (k + B.length) [] := by
  intro B
  induction B with
  | nil =>
    intro D st k tail I _
    refine ⟨[], ?_⟩
    rw [List.append_nil]
    exact I
  | cons m B' ih =>
    intro D st k tail I hdrop
    have hm : m ∈ msgs := by
      apply List.drop_subset k msgs
      rw [hdrop]
      exact List.mem_cons_self m _
    have hdrop' : msgs.drop (k + 1) = B' ++ tail := by
      have h1 : (msgs.drop k).drop 1 = B' ++ tail := by
        rw [hdrop]
        rfl
      rw [List.drop_drop] at h1
      exact h1
    have hstep : ∀ m2, processBatch st (m2 :: B') =
        processBatch (processMsg st m2) B' := fun _ => rfl
    have hklen : k + (m :: B').length = (k + 1) + B'.length := by
      rw [List.length_cons]
      omega
    rcases msg_shape ids ch uq stt msgs S1 m hm with ⟨x, hx_ids, heq⟩ |
        ⟨p0, c0, hp0, hc0, heq⟩
    · subst heq
      by_cases hx : x ∈ st.jobs
      · have hnd := msgs_nodup roots ids ch uq stt msgs W S1
        have hnotin : Msg.complete x (uq x) (stt x) ∉ msgs.take k :=
          fresh_not_in_take msgs hnd k _ _ hdrop
        have hxnotread : x ∉ readC msgs k := by
          intro h
          exact hnotin ((mem_readC ids ch uq stt msgs S1 x k).mp h)
        have I2 : InvP roots ids ch uq stt msgs (D ++ [x])
            (processMsg st (Msg.complete x (uq x) (stt x))) (k + 1) [] := by
          apply invp_consume roots ids ch uq stt msgs W S1 S2 D st k (k + 1)
            [] [] x I hx
          · rw [take_succ_of_drop msgs k _ _ hdrop]
            exact List.mem_append.mpr (Or.inr (List.mem_singleton.mpr rfl))
          · exact readC_succ_complete msgs k x (uq x) (stt x) _ hdrop
          · exact ann_succ_complete msgs k x (uq x) (stt x) _ hdrop
          · exact Or.inr ⟨rfl, rfl⟩
          · intro hxe
            obtain ⟨u2, r2, hm2⟩ := (mem_compIds _ x).mp hxe
            obtain ⟨y2, heq2, _, hyr2⟩ := I.early_shape _ hm2
            obtain ⟨hee, _, _⟩ := Msg.complete.inj heq2
            exact hxnotread (hee ▸ hyr2)
        obtain ⟨Δ', I3⟩ := ih (D ++ [x]) _ (k + 1) tail I2 hdrop'
        refine ⟨x :: Δ', ?_⟩
        rw [hstep, hklen]
        have hassoc : D ++ x :: Δ' = (D ++ [x]) ++ Δ' := by
          rw [List.append_assoc]
          rfl
        rw [hassoc]
        exact I3
      · have I2 := invp_park roots ids ch uq stt msgs W S1 D st k x _ I hx hdrop
        obtain ⟨Δ', I3⟩ := ih D _ (k + 1) tail I2 hdrop'
        refine ⟨Δ', ?_⟩
        rw [hstep, hklen]
        exact I3
    · subst heq
      have I2 := invp_announce roots ids ch uq stt msgs D st k p0 c0 _ I hdrop
        hp0 hc0
      obtain ⟨Δ', I3⟩ := ih D _ (k + 1) tail I2 hdrop'
      refine ⟨Δ', ?_⟩
      rw [hstep, hklen]
      exact I3

/-- When the outstanding set empties, every completion of the forest has
been consumed, the counters equal the number of jobs, and the whole
schedule has been read. -/
theorem invp_halt (W : SysWF roots ids ch)
    (S1 : msgs.Perm (treeMsgs ids ch uq stt))
    (S2 : AnnBefore ids ch uq stt msgs)
    (D : List String) (st : ClientState) (k : Nat)
    (I : InvP roots ids ch uq stt msgs D st k [])
    (hjobs : st.jobs = []) :
    st.done = ids.length ∧ st.total = ids.length ∧ msgs.drop k = [] := by
  have hclosed : ∀ y ∈ adoptedSet roots ch D, y ∈ D := by
    intro y hy
    by_contra hyD
    have : y ∈ st.jobs := (I.jobs_iff y).mpr ⟨hy, hyD⟩
    rw [hjobs] at this
    exact absurd this (List.not_mem_nil y)
  have hroots : ∀ y ∈ roots, y ∈ D := fun y h =>
    hclosed y ((mem_adoptedSet roots ch D y).mpr (Or.inl h))
  have hch : ∀ j ∈ D, ∀ c ∈ ch j, c ∈ D := fun j hj2 c hc =>
    hclosed c ((mem_adoptedSet roots ch D c).mpr (Or.inr ⟨j, hj2, hc⟩))
  have hreach : ∀ n, ∀ y ∈ reachN roots ch n, y ∈ D := by
    intro n
    induction n with
    | zero => exact hroots
    | succ n ihn =>
      intro y hy
      unfold reachN at hy
      rcases List.mem_append.mp hy with h | h
      · exact ihn y h
      · obtain ⟨j, hjn, hc⟩ := List.mem_flatMap.mp h
        exact hch j (ihn j hjn) y hc
  have hDids : ∀ y ∈ ids, y ∈ D := fun y hy =>
    hreach ids.length y (W.reach_all y hy)
  have hperm : D.Perm ids :=
    (List.perm_ext_iff_of_nodup I.d_nodup W.ids_nodup).mpr
      (fun a => ⟨I.d_sub_ids a, hDids a⟩)
  have hlen : D.length = ids.length := hperm.length_eq
  have hdisj : roots.Disjoint (edgesOf ids ch) := by
    intro a ha hb
    exact W.roots_edges a ha hb
  have hsplit : ids.Perm (roots ++ edgesOf ids ch) := by
    apply (List.perm_ext_iff_of_nodup W.ids_nodup ?_).mpr
    · intro a
      constructor
      · intro h
        exact List.mem_append.mpr (W.cover a h)
      · intro h
        rcases List.mem_append.mp h with h2 | h2
        · exact W.roots_sub a h2
        · exact W.edges_sub a h2
    · rw [List.nodup_append]
      exact ⟨W.roots_nodup, W.edges_nodup, hdisj⟩
  have hflatlen : (D.flatMap ch).length = (edgesOf ids ch).length :=
    (hperm.flatMap_right ch).length_eq
  have hidslen : ids.length = roots.length + (edgesOf ids ch).length := by
    rw [hsplit.length_eq, List.length_append]
  refine ⟨?_, ?_, ?_⟩
  · rw [I.done_eq, hlen]
  · rw [I.total_eq, hflatlen]
    omega
  · have hall : ∀ m ∈ msgs, m ∈ msgs.take k := by
      intro m hm
      rcases msg_shape ids ch uq stt msgs S1 m hm with ⟨x, hx_ids, heq⟩ |
          ⟨p0, c0, hp0, hc0, heq⟩
      · subst heq
        exact (mem_readC ids ch uq stt msgs S1 x k).mp (I.d_read x (hDids x hx_ids))
      · subst heq
        apply annBefore_all ids ch uq stt msgs S2 p0 hp0 c0 hc0 k
        exact (mem_readC ids ch uq stt msgs S1 p0 k).mp
          (I.d_read p0 (hDids p0 hp0))
    cases hd : msgs.drop k with
    | nil => rfl
    | cons m rest =>
      exfalso
      have hm : m ∈ msgs := by
        apply List.drop_subset k msgs
        rw [hd]
        exact List.mem_cons_self m rest
      exact fresh_not_in_take msgs (msgs_nodup roots ids ch uq stt msgs W S1) k
        m rest hd (hall m hm)

/-- One unfolding of the collection loop. -/
theorem runClient_succ_eq (fuel : Nat) (st : ClientState)
    (stream : List (List Msg)) :
    runClient (Nat.succ fuel) st stream =
      if st.jobs = [] then (st, stream, true)
      else
        match st.early with
        | [] =>
          match stream with
          | [] => (st, stream, false)
          | batch :: rest => runClient fuel (processBatch st batch) rest
        | m :: e2 =>
          runClient fuel (processBatch { st with early := [] } (m :: e2)) stream :=
  rfl

/-- The loop exits as soon as the outstanding set is empty. -/
theorem runClient_halt (fuel : Nat) (st : ClientState) (stream : List (List Msg))
    (h : st.jobs = []) :
    runClient (Nat.succ fuel) st stream = (st, stream, true) := by
  rw [runClient_succ_eq, if_pos h]

/-- With no replays pending, the loop blocks for the next batch. -/
theorem runClient_stream (fuel : Nat) (st : ClientState) (batch : List Msg)
    (rest : List (List Msg)) (h : ¬ st.jobs = []) (he : st.early = []) :
    runClient (Nat.succ fuel) st (batch :: rest) =
      runClient fuel (processBatch st batch) rest := by
  rw [runClient_succ_eq, if_neg h, he]

/-- A nonempty replay list is processed as the next batch, without
touching the stream. -/
theorem runClient_early (fuel : Nat) (st : ClientState)
    (stream : List (List Msg)) (h : ¬ st.jobs = []) (m : Msg) (e2 : List Msg)
    (he : st.early = m :: e2) :
    runClient (Nat.succ fuel) st stream =
      runClient fuel (processBatch { st with early := [] } (m :: e2)) stream := by
  rw [runClient_succ_eq, if_neg h, he]

/-- The collection loop, started on a well-formed run description with
the invariant holding and enough fuel, consumes the entire schedule and
exits normally with done and total equal to the number of jobs of the
forest. -/
theorem runClient_reconciles (W : SysWF roots ids ch)
    (S1 : msgs.Perm (treeMsgs ids ch uq stt))
    (S2 : AnnBefore ids ch uq stt msgs) :
    ∀ (fuel : Nat) (D : List String) (st : ClientState) (k : Nat)
      (R : List (List Msg)),
      InvP roots ids ch uq stt msgs D st k [] →
      R.flatten = msgs.drop k →
      (∀ b ∈ R, b ≠ []) →
      R.length * (ids.length + 1) + (ids.length + 1 - D.length) ≤ fuel →
      ∃ st2, runClient fuel st R = (st2, [], true) ∧ st2.jobs = [] ∧
        st2.done = ids.length ∧ st2.total = ids.length := by
  intro fuel
  induction fuel with
  | zero =>
    intro D st k R I hflat hne hfuel
    exfalso
    have hD := consumed_length_le ids D I.d_nodup I.d_sub_ids
    omega
  | succ fuel ih =>
    intro D st k R I hflat hne hfuel
    by_cases hjobs : st.jobs = []
    · obtain ⟨hdone, htotal, hdrop⟩ :=
        invp_halt roots ids ch uq stt msgs W S1 S2 D st k I hjobs
      have hflat2 : R.flatten = [] := by
        rw [hflat, hdrop]
      have hR : R = [] := by
        cases R with
        | nil => rfl
        | cons b R2 =>
          exfalso
          have hb := hne b (List.mem_cons_self b R2)
          rw [List.flatten_cons] at hflat2
          exact hb (List.append_eq_nil.mp hflat2).1
      subst hR
      rw [runClient_halt fuel st [] hjobs]
      exact ⟨st, rfl, hjobs, hdone, htotal⟩
    · cases hearly : st.early with
      | nil =>
        cases R with
        | nil =>
          exfalso
          have hdrop : msgs.drop k = [] := by
            rw [← hflat]
            rfl
          obtain ⟨x, hx⟩ := List.exists_mem_of_ne_nil st.jobs hjobs
          obtain ⟨hxA, hxD⟩ := (I.jobs_iff x).mp hx
          have hx_ids : x ∈ ids :=
            adoptedSet_sub_ids roots ids ch W D I.d_sub_ids x hxA
          have hin := complete_mem_msgs ids ch uq stt msgs S1 x hx_ids
          have htkfull : msgs.take k = msgs := by
            have h1 := List.take_append_drop k msgs
            rw [hdrop, List.append_nil] at h1
            exact h1
          have hxr : x ∈ readC msgs k := by
            rw [mem_readC ids ch uq stt msgs S1 x k, htkfull]
            exact hin
          rcases (I.part x).mp hxr with h | h | h | h
          · exact hxD h
          · exact ((I.unexp_iff x).mp h).2 hxA
          · rw [hearly] at h
            simp [compIds] at h
          · simp [compIds] at h
        | cons B R2 =>
          have hdropk : msgs.drop k = B ++ R2.flatten := by
            rw [← hflat]
            rfl
          obtain ⟨Δ, I2⟩ := invp_stream_batch roots ids ch uq stt msgs W S1 S2
            B D st k R2.flatten I hdropk
          rw [runClient_stream fuel st B R2 hjobs hearly]
          have hflat2 : R2.flatten = msgs.drop (k + B.length) := by
            have h1 : (msgs.drop k).drop B.length = msgs.drop (k + B.length) :=
              List.drop_drop B.length k msgs
            rw [hdropk, List.drop_left] at h1
            exact h1
          have hD2 := consumed_length_le ids (D ++ Δ) I2.d_nodup I2.d_sub_ids
          have hDle := consumed_length_le ids D I.d_nodup I.d_sub_ids
          have hexp : (R2.length + 1) * (ids.length + 1) =
              R2.length * (ids.length + 1) + (ids.length + 1) := by
            ring
          have hfuel2 : R2.length * (ids.length + 1) +
              (ids.length + 1 - (D ++ Δ).length) ≤ fuel := by
            rw [List.length_cons, hexp] at hfuel
            omega
          exact ih (D ++ Δ) _ (k + B.length) R2 I2 hflat2
            (fun b hb => hne b (List.mem_cons_of_mem _ hb)) hfuel2
      | cons m e2 =>
        have I1 := invp_to_pending roots ids ch uq stt msgs D st k I
        rw [hearly] at I1
        obtain ⟨Δ, hΔlen, I2⟩ := invp_early_batch roots ids ch uq stt msgs W S1 S2
          (m :: e2) D { st with early := [] } k I1
        rw [runClient_early fuel st R hjobs m e2 hearly]
        have hD2 := consumed_length_le ids (D ++ Δ) I2.d_nodup I2.d_sub_ids
        have hΔpos : 1 ≤ Δ.length := by
          rw [hΔlen, List.length_cons]
          omega
        have hDlen : (D ++ Δ).length = D.length + Δ.length := List.length_append D Δ
        have hfuel2 : R.length * (ids.length + 1) +
            (ids.length + 1 - (D ++ Δ).length) ≤ fuel := by
          omega
        exact ih (D ++ Δ) _ k R I2 hflat hne hfuel2

end SubjobRunSteps

/-- C2 as amended: for every run described by a well-formed forest of
jobs (the submitted roots and, below each job, the subjobs its execution
announced), every delivery schedule that permutes the run's
notifications so that each subjob announcement is consumed before its
parent's completion, and every batching of that schedule, the collection
loop terminates by emptying the outstanding set, only after consuming
the entire schedule — hence after every completion, of the parent and of
every transitively nested descendant, has been consumed, completions
that arrived before adoption having been parked in unexpected and
replayed — and reports done and total equal to the number of jobs, i.e.
1 plus k plus the transitively nested subjobs for a single submitted
parent with k subjobs. -/
theorem c2_subjob_reconciliation
    (roots ids : List String) (ch : String → List String)
    (uq : String → String) (stt : String → Status)
    (msgs : List Msg) (batches : List (List Msg))
    (W : SysWF roots ids ch)
    (S1 : msgs.Perm (treeMsgs ids ch uq stt))
    (S2 : AnnBefore ids ch uq stt msgs)
    (hb : batches.flatten = msgs)
    (hne : ∀ b ∈ batches, b ≠ []) :
    ∃ st2, runClient (fuelBound batches.length ids.length) (initState roots)
        batches = (st2, [], true) ∧
      st2.jobs = [] ∧ st2.done = ids.length ∧ st2.total = ids.length := by
  apply runClient_reconciles roots ids ch uq stt msgs W S1 S2
    (fuelBound batches.length ids.length) [] (initState roots) 0 batches
  · exact invp_init roots ids ch uq stt msgs W
  · rw [hb, List.drop_zero]
  · exact hne
  · unfold fuelBound
    omega

/-- Witness for the amended C2 at a concrete run: parent P announces one
subjob S, the completion of S arrives before the completion of P and is
parked, and the loop ends with done and total equal to 2. -/
theorem c2_subjob_reconciliation_witness :
    (SysWF ["P"] ["P", "S"] c2ch ∧
     c2msgs.Perm (treeMsgs ["P", "S"] c2ch c2uq c2stt) ∧
     AnnBefore ["P", "S"] c2ch c2uq c2stt c2msgs ∧
     [c2msgs].flatten = c2msgs ∧ (∀ b ∈ [c2msgs], b ≠ [])) ∧
    (∃ st2, runClient (fuelBound 1 2) (initState ["P"]) [c2msgs] =
        (st2, [], true) ∧
      st2.jobs = [] ∧ st2.done = 2 ∧ st2.total = 2) := by
  refine ⟨⟨⟨by decide, by decide, by decide, by decide, by decide, by decide,
    by decide, by decide⟩, by decide, by decide, by decide, by decide⟩, ?_⟩
  exact c2_subjob_reconciliation ["P"] ["P", "S"] c2ch c2uq c2stt c2msgs [c2msgs]
    ⟨by decide, by decide, by decide, by decide, by decide, by decide,
      by decide, by decide⟩
    (by decide) (by decide) (by decide) (by decide)

end Dwq
